import Mathlib

/-!
Verification of the incremental protobuf encoder/decoder of the perfetto Rust
SDK (`contrib/rust-sdk/perfetto`): the primitive codec (`pb_utils.rs`), the
message writer with deferred length backpatching (`pb_msg.rs`), the stream
writer (`stream_writer.rs`) and the wire decoder (`pb_decoder.rs`).

Machine integers are embedded as `Nat` (resp. `Int` for the signed zigzag
types) with explicit `% 2 ^ w` where the source relies on wrapping, byte
buffers as `List Nat`, and pointers as offsets.  Parts of the pipeline that
live in the C core of the repository (the chunk provider, the stream-writer
slow paths, `PerfettoStreamWriterAnnotatePatch` and
`PerfettoPbDecoderParseField`) are modelled from the specification; each such
definition carries a doc comment saying so.
-/

namespace PerfettoSpec

/-! ### Bit-manipulation helper lemmas -/

/-- xor on a pair of numbers decomposed into low bit and rest. -/
theorem xor_mul_two_add (q m r s : Nat) (hr : r < 2) (hs : s < 2) :
    (2 * q + r) ^^^ (2 * m + s) = 2 * (q ^^^ m) + (r ^^^ s) := by
  apply Nat.eq_of_testBit_eq
  intro i
  have h2 : (2 : Nat) * q + r = 2 ^ 1 * q + r := by ring_nf
  have h2m : (2 : Nat) * m + s = 2 ^ 1 * m + s := by ring_nf
  have h2x : (2 : Nat) * (q ^^^ m) + (r ^^^ s) = 2 ^ 1 * (q ^^^ m) + (r ^^^ s) := by ring_nf
  have hrs : r ^^^ s < 2 ^ 1 := by
    interval_cases r <;> interval_cases s <;> decide
  rw [h2, h2m, h2x, Nat.testBit_xor,
    Nat.testBit_mul_pow_two_add q (by simpa using hr) i,
    Nat.testBit_mul_pow_two_add m (by simpa using hs) i,
    Nat.testBit_mul_pow_two_add (q ^^^ m) hrs i]
  by_cases h : i < 1
  · simp [h, Nat.testBit_xor]
  · simp [h, Nat.testBit_xor]

/-- xor with an all-ones mask is subtraction from the mask. -/
theorem xor_all_ones {w x : Nat} (h : x < 2 ^ w) :
    x ^^^ (2 ^ w - 1) = 2 ^ w - 1 - x := by
  induction w generalizing x with
  | zero =>
    have h0 : x = 0 := by simpa using h
    subst h0
    decide
  | succ w ih =>
    have hp : (2 : Nat) ^ (w + 1) = 2 ^ w * 2 := by ring
    have h1 : (1 : Nat) ≤ 2 ^ w := Nat.one_le_two_pow
    have hx2 : x / 2 < 2 ^ w := by omega
    have hx : x = 2 * (x / 2) + x % 2 := by omega
    have hmask : (2 : Nat) ^ (w + 1) - 1 = 2 * (2 ^ w - 1) + 1 := by omega
    have hstep : x ^^^ (2 ^ (w + 1) - 1)
        = 2 * ((x / 2) ^^^ (2 ^ w - 1)) + ((x % 2) ^^^ 1) := by
      conv_lhs => rw [hx, hmask]
      exact xor_mul_two_add _ _ _ _ (by omega) (by norm_num)
    rw [hstep, ih hx2]
    have e0 : (0 : Nat) ^^^ 1 = 1 := by decide
    have e1 : (1 : Nat) ^^^ 1 = 0 := by decide
    rcases Nat.mod_two_eq_zero_or_one x with h2 | h2 <;> rw [h2] <;>
      simp only [e0, e1] <;> omega

/-- A number below a power of two has no bits at or above that power. -/
theorem testBit_ge_of_lt {x n i : Nat} (h : x < 2 ^ n) (hi : n ≤ i) :
    x.testBit i = false :=
  Nat.testBit_lt_two_pow (Nat.lt_of_lt_of_le h (Nat.pow_le_pow_right (by norm_num) hi))

/-!
### Primitive codec

Embedding of `src/contrib/rust-sdk/perfetto/src/pb_utils.rs`.  Buffers are
`List Nat`; the write functions return the bytes they would store rather than
mutating a caller-supplied slice.
-/

/-- Type of fields that can be found in a protobuf serialized message
(pb_utils.rs lines 18-28). -/
inductive PbWireType where
  | Varint
  | Fixed64
  | Delimited
  | Fixed32
deriving DecidableEq

/-- The u32 discriminant of a wire type (`wire_type as u32`). -/
def PbWireType.toNat : PbWireType → Nat
  | .Varint => 0
  | .Fixed64 => 1
  | .Delimited => 2
  | .Fixed32 => 5

/-- Embedding of `TryFrom<u32> for PbWireType` (pb_utils.rs lines 30-42);
`Option` models `Result<Self, ()>`. -/
def pbWireTypeTryFrom (value : Nat) : Option PbWireType :=
  match value with
  | 0 => some .Varint
  | 1 => some .Fixed64
  | 2 => some .Delimited
  | 5 => some .Fixed32
  | _ => none

/-- Embedding of `pb_make_tag` (pb_utils.rs lines 45-47): u32 arithmetic, so
the shift wraps modulo `2 ^ 32`. -/
def pb_make_tag (field_id : Nat) (wire_type : PbWireType) : Nat :=
  ((field_id <<< 3) % 2 ^ 32) ||| wire_type.toNat

/-- Maximum byte size of a 64-bit integer encoded as a VarInt (pb_utils.rs line 50). -/
def PB_VARINT_MAX_SIZE_64 : Nat := 10

/-- Maximum byte size of a 32-bit integer encoded as a VarInt (pb_utils.rs line 53). -/
def PB_VARINT_MAX_SIZE_32 : Nat := 5

/-- Embedding of `pb_write_varint` (pb_utils.rs lines 59-73).  The returned
list is the sequence of bytes the source stores in `dst`; its length is the
returned `offset`. -/
def pb_write_varint (value : Nat) : List Nat :=
  if h : 0x80 ≤ value then
    ((value &&& 0x7f) ||| 0x80) :: pb_write_varint (value >>> 7)
  else
    [value &&& 0x7f]
termination_by value
decreasing_by
  simp only [Nat.shiftRight_eq_div_pow]
  exact Nat.div_lt_self (by omega) (by norm_num)

/-- Embedding of `pb_write_fixed32` (pb_utils.rs lines 78-84); `as u8` is `% 256`. -/
def pb_write_fixed32 (value : Nat) : List Nat :=
  [value % 256, (value >>> 8) % 256, (value >>> 16) % 256, (value >>> 24) % 256]

/-- Embedding of `pb_write_fixed64` (pb_utils.rs lines 89-99). -/
def pb_write_fixed64 (value : Nat) : List Nat :=
  [value % 256, (value >>> 8) % 256, (value >>> 16) % 256, (value >>> 24) % 256,
   (value >>> 32) % 256, (value >>> 40) % 256, (value >>> 48) % 256, (value >>> 56) % 256]

/-- Loop of `pb_parse_varint` (pb_utils.rs lines 106-121).  The first argument
is the unread remainder of `src`; `offset`, `value` and `shift` are the loop
variables.  The u64 shift `((byte & 0x7f) as u64) << shift` discards bits at
or above 64, hence the `% 2 ^ 64`. -/
def pb_parse_varint_go : List Nat → Nat → Nat → Nat → Nat × Nat
  | [], _, _, _ => (0, 0)
  | byte :: rest, offset, value, shift =>
    if shift < 64 then
      if byte &&& 0x80 = 0 then
        (value ||| (((byte &&& 0x7f) <<< shift) % 2 ^ 64), offset + 1)
      else
        pb_parse_varint_go rest (offset + 1)
          (value ||| (((byte &&& 0x7f) <<< shift) % 2 ^ 64)) (shift + 7)
    else (0, 0)

/-- Embedding of `pb_parse_varint` (pb_utils.rs lines 106-121): returns the
parsed value and the number of consumed bytes, or `(0, 0)` on failure. -/
def pb_parse_varint (src : List Nat) : Nat × Nat :=
  pb_parse_varint_go src 0 0 0

/-- Two's-complement reinterpretation `value as u32` of an `i32`. -/
def u32_of_i32 (v : Int) : Nat := (v % (2 ^ 32 : Int)).toNat

/-- Reinterpretation `value as i32` of a `u32`. -/
def i32_of_u32 (n : Nat) : Int := if n < 2 ^ 31 then (n : Int) else (n : Int) - 2 ^ 32

/-- Two's-complement reinterpretation `value as u64` of an `i64`. -/
def u64_of_i64 (v : Int) : Nat := (v % (2 ^ 64 : Int)).toNat

/-- Reinterpretation `value as i64` of a `u64`. -/
def i64_of_u64 (n : Nat) : Int := if n < 2 ^ 63 then (n : Int) else (n : Int) - 2 ^ 64

/-- Arithmetic shift right of a signed value: floor division by `2 ^ n`
(for a positive divisor, Euclidean division is floor division). -/
def int_ashr (v : Int) (n : Nat) : Int := v / (2 ^ n : Int)

/-- Embedding of `pb_zigzag_encode32` (pb_utils.rs lines 124-126):
`((value as u32) << 1) ^ (value >> 31) as u32`. -/
def pb_zigzag_encode32 (value : Int) : Nat :=
  ((u32_of_i32 value <<< 1) % 2 ^ 32) ^^^ u32_of_i32 (int_ashr value 31)

/-- Embedding of `pb_zigzag_encode64` (pb_utils.rs lines 129-131). -/
def pb_zigzag_encode64 (value : Int) : Nat :=
  ((u64_of_i64 value <<< 1) % 2 ^ 64) ^^^ u64_of_i64 (int_ashr value 63)

/-- Embedding of `pb_zigzag_decode32` (pb_utils.rs lines 134-137):
`mask = (-((value & 1) as i32)) as u32`, result `((value >> 1) ^ mask) as i32`. -/
def pb_zigzag_decode32 (value : Nat) : Int :=
  i32_of_u32 ((value >>> 1) ^^^ u32_of_i32 (-((value &&& 1 : Nat) : Int)))

/-- Embedding of `pb_zigzag_decode64` (pb_utils.rs lines 140-143). -/
def pb_zigzag_decode64 (value : Nat) : Int :=
  i64_of_u64 ((value >>> 1) ^^^ u64_of_i64 (-((value &&& 1 : Nat) : Int)))

/-! ### ZigZag inverse law -/

theorem zigzag_enc32_nonneg (v : Int) (h0 : 0 ≤ v) (h : v < 2 ^ 31) :
    pb_zigzag_encode32 v = 2 * v.toNat := by
  unfold pb_zigzag_encode32 u32_of_i32 int_ashr
  have h2 : v % 2 ^ 32 = v := by omega
  have h3 : v / 2 ^ 31 = 0 := by omega
  have h4 : ((0 : Int) % 2 ^ 32).toNat = 0 := by omega
  rw [h2, h3, h4, Nat.xor_zero, Nat.shiftLeft_eq]
  have h5 : v.toNat * 2 ^ 1 = 2 * v.toNat := by ring
  rw [h5]
  apply Nat.mod_eq_of_lt
  omega

theorem zigzag_enc32_neg (v : Int) (hl : -(2 ^ 31) ≤ v) (h : v < 0) :
    pb_zigzag_encode32 v = 2 * (-v).toNat - 1 := by
  unfold pb_zigzag_encode32 u32_of_i32 int_ashr
  have h2 : v % 2 ^ 32 = v + 2 ^ 32 := by omega
  have h3 : v / 2 ^ 31 = -1 := by omega
  have h4 : ((-1 : Int) % 2 ^ 32).toNat = 2 ^ 32 - 1 := by omega
  rw [h2, h3, h4, Nat.shiftLeft_eq]
  have ha : ((v + 2 ^ 32).toNat : Int) = v + 2 ^ 32 := by omega
  have h5 : (v + 2 ^ 32).toNat * 2 ^ 1 % 2 ^ 32 = 2 * (v + 2 ^ 32).toNat - 2 ^ 32 := by omega
  rw [h5]
  have h6 : 2 * (v + 2 ^ 32).toNat - 2 ^ 32 < 2 ^ 32 := by omega
  rw [xor_all_ones h6]
  omega

theorem zigzag_dec32_even (n : Nat) (h : n < 2 ^ 31) :
    pb_zigzag_decode32 (2 * n) = (n : Int) := by
  unfold pb_zigzag_decode32 u32_of_i32 i32_of_u32
  have h1 : 2 * n &&& 1 = 0 := by rw [Nat.and_one_is_mod]; omega
  rw [h1]
  have h2 : (-(((0 : Nat) : Int)) % 2 ^ 32).toNat = 0 := by
    simp
  rw [h2]
  have h3 : (2 * n) >>> 1 = n := by rw [Nat.shiftRight_eq_div_pow]; omega
  rw [h3, Nat.xor_zero, if_pos h]

theorem zigzag_dec32_odd (n : Nat) (h1 : 1 ≤ n) (h2 : n ≤ 2 ^ 31) :
    pb_zigzag_decode32 (2 * n - 1) = -(n : Int) := by
  unfold pb_zigzag_decode32 u32_of_i32 i32_of_u32
  have ha : (2 * n - 1) &&& 1 = 1 := by rw [Nat.and_one_is_mod]; omega
  rw [ha]
  have hb : (-(((1 : Nat) : Int)) % 2 ^ 32).toNat = 2 ^ 32 - 1 := by
    omega
  rw [hb]
  have hc : (2 * n - 1) >>> 1 = n - 1 := by rw [Nat.shiftRight_eq_div_pow]; omega
  rw [hc]
  have hd : n - 1 < 2 ^ 32 := by omega
  rw [xor_all_ones hd]
  rw [if_neg (by omega)]
  omega

theorem pb_zigzag32_roundtrip (v : Int) (hl : -(2 ^ 31) ≤ v) (hu : v < 2 ^ 31) :
    pb_zigzag_decode32 (pb_zigzag_encode32 v) = v := by
  rcases le_or_lt 0 v with hv | hv
  · rw [zigzag_enc32_nonneg v hv hu, zigzag_dec32_even v.toNat (by omega)]
    omega
  · rw [zigzag_enc32_neg v hl hv, zigzag_dec32_odd (-v).toNat (by omega) (by omega)]
    omega

theorem zigzag_enc64_nonneg (v : Int) (h0 : 0 ≤ v) (h : v < 2 ^ 63) :
    pb_zigzag_encode64 v = 2 * v.toNat := by
  unfold pb_zigzag_encode64 u64_of_i64 int_ashr
  have h2 : v % 2 ^ 64 = v := by omega
  have h3 : v / 2 ^ 63 = 0 := by omega
  have h4 : ((0 : Int) % 2 ^ 64).toNat = 0 := by omega
  rw [h2, h3, h4, Nat.xor_zero, Nat.shiftLeft_eq]
  have h5 : v.toNat * 2 ^ 1 = 2 * v.toNat := by ring
  rw [h5]
  apply Nat.mod_eq_of_lt
  omega

theorem zigzag_enc64_neg (v : Int) (hl : -(2 ^ 63) ≤ v) (h : v < 0) :
    pb_zigzag_encode64 v = 2 * (-v).toNat - 1 := by
  unfold pb_zigzag_encode64 u64_of_i64 int_ashr
  have h2 : v % 2 ^ 64 = v + 2 ^ 64 := by omega
  have h3 : v / 2 ^ 63 = -1 := by omega
  have h4 : ((-1 : Int) % 2 ^ 64).toNat = 2 ^ 64 - 1 := by omega
  rw [h2, h3, h4, Nat.shiftLeft_eq]
  have ha : ((v + 2 ^ 64).toNat : Int) = v + 2 ^ 64 := by omega
  have h5 : (v + 2 ^ 64).toNat * 2 ^ 1 % 2 ^ 64 = 2 * (v + 2 ^ 64).toNat - 2 ^ 64 := by omega
  rw [h5]
  have h6 : 2 * (v + 2 ^ 64).toNat - 2 ^ 64 < 2 ^ 64 := by omega
  rw [xor_all_ones h6]
  omega

theorem zigzag_dec64_even (n : Nat) (h : n < 2 ^ 63) :
    pb_zigzag_decode64 (2 * n) = (n : Int) := by
  unfold pb_zigzag_decode64 u64_of_i64 i64_of_u64
  have h1 : 2 * n &&& 1 = 0 := by rw [Nat.and_one_is_mod]; omega
  rw [h1]
  have h2 : (-(((0 : Nat) : Int)) % 2 ^ 64).toNat = 0 := by
    simp
  rw [h2]
  have h3 : (2 * n) >>> 1 = n := by rw [Nat.shiftRight_eq_div_pow]; omega
  rw [h3, Nat.xor_zero, if_pos h]

theorem zigzag_dec64_odd (n : Nat) (h1 : 1 ≤ n) (h2 : n ≤ 2 ^ 63) :
    pb_zigzag_decode64 (2 * n - 1) = -(n : Int) := by
  unfold pb_zigzag_decode64 u64_of_i64 i64_of_u64
  have ha : (2 * n - 1) &&& 1 = 1 := by rw [Nat.and_one_is_mod]; omega
  rw [ha]
  have hb : (-(((1 : Nat) : Int)) % 2 ^ 64).toNat = 2 ^ 64 - 1 := by
    omega
  rw [hb]
  have hc : (2 * n - 1) >>> 1 = n - 1 := by rw [Nat.shiftRight_eq_div_pow]; omega
  rw [hc]
  have hd : n - 1 < 2 ^ 64 := by omega
  rw [xor_all_ones hd]
  rw [if_neg (by omega)]
  omega

theorem pb_zigzag64_roundtrip (v : Int) (hl : -(2 ^ 63) ≤ v) (hu : v < 2 ^ 63) :
    pb_zigzag_decode64 (pb_zigzag_encode64 v) = v := by
  rcases le_or_lt 0 v with hv | hv
  · rw [zigzag_enc64_nonneg v hv hu, zigzag_dec64_even v.toNat (by omega)]
    omega
  · rw [zigzag_enc64_neg v hl hv, zigzag_dec64_odd (-v).toNat (by omega) (by omega)]
    omega

/-! ### Varint write/parse lemmas -/

theorem and_127_eq_mod (x : Nat) : x &&& 127 = x % 128 := by
  have := Nat.and_pow_two_sub_one_eq_mod x 7
  norm_num at this
  exact this

theorem and_128_eq_zero_of_lt {x : Nat} (h : x < 128) : x &&& 128 = 0 := by
  have h7 : x.testBit 7 = false := Nat.testBit_lt_two_pow (by omega)
  have h2 := Nat.and_two_pow x 7
  rw [h7] at h2
  simpa using h2

/-- A continuation byte `(x & 0x7f) | 0x80` has its top bit set. -/
theorem cont_byte_and_128 (x : Nat) : ((x &&& 127) ||| 128) &&& 128 = 128 := by
  apply Nat.eq_of_testBit_eq
  intro i
  have h128 : (128 : Nat) = 2 ^ 7 := by norm_num
  have h127 : (127 : Nat) = 2 ^ 7 - 1 := by norm_num
  rw [Nat.testBit_and, Nat.testBit_or, Nat.testBit_and, h127, h128,
    Nat.testBit_two_pow_sub_one, Nat.testBit_two_pow]
  by_cases h : 7 = i <;> simp [h]

/-- A continuation byte keeps the low seven payload bits. -/
theorem cont_byte_and_127 (x : Nat) : ((x &&& 127) ||| 128) &&& 127 = x &&& 127 := by
  apply Nat.eq_of_testBit_eq
  intro i
  have h128 : (128 : Nat) = 2 ^ 7 := by norm_num
  have h127 : (127 : Nat) = 2 ^ 7 - 1 := by norm_num
  simp only [Nat.testBit_and, Nat.testBit_or, h127, h128,
    Nat.testBit_two_pow_sub_one, Nat.testBit_two_pow]
  by_cases h : i < 7
  · have h7 : ¬ (7 = i) := by omega
    simp [h, h7]
  · simp [h]

theorem cont_byte_lt_256 (x : Nat) : (x &&& 127) ||| 128 < 256 := by
  have h1 : x &&& 127 < 2 ^ 8 := Nat.lt_of_le_of_lt Nat.and_le_right (by norm_num)
  have h2 : (128 : Nat) < 2 ^ 8 := by norm_num
  have h3 := Nat.or_lt_two_pow h1 h2
  norm_num at h3
  exact h3

/-- Low 7 bits shifted into place, then the rest shifted seven further,
recompose the whole shifted value. -/
theorem varint_chunk_recompose (v shift : Nat) :
    ((v &&& 127) <<< shift) ||| ((v >>> 7) <<< (shift + 7)) = v <<< shift := by
  apply Nat.eq_of_testBit_eq
  intro i
  have h127 : (127 : Nat) = 2 ^ 7 - 1 := by norm_num
  rw [Nat.testBit_or, Nat.testBit_shiftLeft, Nat.testBit_shiftLeft, Nat.testBit_shiftLeft,
    Nat.testBit_and, h127, Nat.testBit_two_pow_sub_one, Nat.testBit_shiftRight]
  by_cases h1 : shift ≤ i
  · by_cases h2 : i < shift + 7
    · have e2 : ¬ (shift + 7 ≤ i) := by omega
      have e5 : i - shift < 7 := by omega
      simp [h1, e2, e5]
    · have e2 : shift + 7 ≤ i := by omega
      have e3 : 7 + (i - (shift + 7)) = i - shift := by omega
      have e4 : ¬ (i - shift < 7) := by omega
      simp [h1, e2, e3, e4]
  · have e2 : ¬ (shift + 7 ≤ i) := by omega
    simp [h1, e2]

theorem shiftLeft_lt_two_pow {x s n : Nat} (hx : x < 2 ^ (n - s)) (hs : s ≤ n) :
    x <<< s < 2 ^ n := by
  rw [Nat.shiftLeft_eq]
  have h1 : (2 : Nat) ^ n = 2 ^ (n - s) * 2 ^ s := by
    rw [← pow_add]
    congr 1
    omega
  rw [h1]
  exact (Nat.mul_lt_mul_right (Nat.pos_pow_of_pos s (by norm_num))).mpr hx

/-- Unfolding equation of `pb_write_varint` in the continuation case. -/
theorem pb_write_varint_eq_cont {v : Nat} (h : 0x80 ≤ v) :
    pb_write_varint v = ((v &&& 0x7f) ||| 0x80) :: pb_write_varint (v >>> 7) := by
  rw [pb_write_varint]
  exact dif_pos h

/-- Unfolding equation of `pb_write_varint` in the terminal case. -/
theorem pb_write_varint_eq_last {v : Nat} (h : v < 0x80) :
    pb_write_varint v = [v &&& 0x7f] := by
  rw [pb_write_varint]
  exact dif_neg (by omega)

/-- Parsing a written varint, starting at an arbitrary loop state: the written
bytes are consumed entirely and contribute `v <<< shift` to the accumulator. -/
theorem parse_write_go (v : Nat) : ∀ (rest : List Nat) (offset value shift : Nat),
    v < 2 ^ (64 - shift) → shift ≤ 63 →
    pb_parse_varint_go (pb_write_varint v ++ rest) offset value shift
      = (value ||| (v <<< shift), offset + (pb_write_varint v).length) := by
  induction v using Nat.strong_induction_on with
  | _ v ih =>
    intro rest offset value shift hv hs
    by_cases h : 0x80 ≤ v
    · -- continuation byte then recursion
      have hshift : shift ≤ 56 := by
        by_contra hc
        have hle : (2 : Nat) ^ (64 - shift) ≤ 2 ^ 7 :=
          Nat.pow_le_pow_right (by norm_num) (by omega)
        have h27 : (2 : Nat) ^ 7 = 128 := by norm_num
        omega
      rw [pb_write_varint_eq_cont h, List.cons_append]
      simp only [pb_parse_varint_go]
      rw [if_pos (show shift < 64 by omega)]
      rw [if_neg (show ¬ (((v &&& 0x7f) ||| 0x80) &&& 0x80 = 0) by
        rw [cont_byte_and_128 v]
        norm_num)]
      rw [cont_byte_and_127 v]
      rw [show ((v &&& 127) <<< shift) % 2 ^ 64 = (v &&& 127) <<< shift from
        Nat.mod_eq_of_lt (shiftLeft_lt_two_pow (by
          have ha : v &&& 127 < 2 ^ 7 := Nat.lt_of_le_of_lt Nat.and_le_right (by norm_num)
          have hb : (2 : Nat) ^ 7 ≤ 2 ^ (64 - shift) :=
            Nat.pow_le_pow_right (by norm_num) (by omega)
          omega) (by omega))]
      have hv7 : v >>> 7 < 2 ^ (64 - (shift + 7)) := by
        rw [Nat.shiftRight_eq_div_pow]
        have hsplit : (2 : Nat) ^ (64 - shift) = 2 ^ (64 - (shift + 7)) * 2 ^ 7 := by
          rw [← pow_add]
          congr 1
          omega
        rw [hsplit] at hv
        have h27 : (2 : Nat) ^ 7 = 128 := by norm_num
        omega
      rw [ih (v >>> 7) (by
          rw [Nat.shiftRight_eq_div_pow]
          exact Nat.div_lt_self (by omega) (by norm_num)) rest (offset + 1)
        (value ||| ((v &&& 127) <<< shift)) (shift + 7) hv7 (by omega)]
      rw [Nat.or_assoc, varint_chunk_recompose]
      congr 1
      simp only [List.length_cons]
      omega
    · -- terminal byte
      have hlt : v < 128 := by omega
      rw [pb_write_varint_eq_last (by omega), List.singleton_append]
      simp only [pb_parse_varint_go]
      rw [if_pos (show shift < 64 by omega)]
      rw [if_pos (show (v &&& 0x7f) &&& 0x80 = 0 by
        rw [Nat.and_assoc]
        rw [show ((0x7f : Nat) &&& 0x80) = 0 from by decide]
        exact Nat.and_zero v)]
      rw [show (v &&& 0x7f) &&& 0x7f = v &&& 0x7f from by
        rw [Nat.and_assoc]
        rw [show ((0x7f : Nat) &&& 0x7f) = 0x7f from by decide]]
      rw [show v &&& 0x7f = v from by
        rw [and_127_eq_mod]
        exact Nat.mod_eq_of_lt hlt]
      rw [show (v <<< shift) % 2 ^ 64 = v <<< shift from
        Nat.mod_eq_of_lt (shiftLeft_lt_two_pow hv (by omega))]
      congr 1

/-- Varint round-trip through an arbitrary suffix. -/
theorem pb_parse_write_varint_append (v : Nat) (rest : List Nat) (h : v < 2 ^ 64) :
    pb_parse_varint (pb_write_varint v ++ rest) = (v, (pb_write_varint v).length) := by
  unfold pb_parse_varint
  rw [parse_write_go v rest 0 0 0 (by simpa using h) (by norm_num)]
  rw [Nat.shiftLeft_zero, Nat.zero_or, Nat.zero_add]

/-- Varint round-trip on exactly the written bytes. -/
theorem pb_parse_write_varint (v : Nat) (h : v < 2 ^ 64) :
    pb_parse_varint (pb_write_varint v) = (v, (pb_write_varint v).length) := by
  have := pb_parse_write_varint_append v [] h
  simpa using this

/-- The varint encoding of a value below `2 ^ (7 * (k + 1))` takes at most
`k + 1` bytes. -/
theorem pb_write_varint_length_le (k : Nat) : ∀ v, v < 2 ^ (7 * (k + 1)) →
    (pb_write_varint v).length ≤ k + 1 := by
  induction k with
  | zero =>
    intro v hv
    have hlt : v < 128 := by
      have : (2 : Nat) ^ (7 * (0 + 1)) = 128 := by norm_num
      omega
    rw [pb_write_varint_eq_last (by omega)]
    simp
  | succ k ih =>
    intro v hv
    by_cases h : 0x80 ≤ v
    · rw [pb_write_varint_eq_cont h]
      have h7 : v >>> 7 < 2 ^ (7 * (k + 1)) := by
        rw [Nat.shiftRight_eq_div_pow]
        have hsplit : (2 : Nat) ^ (7 * (k + 1 + 1)) = 2 ^ (7 * (k + 1)) * 2 ^ 7 := by
          ring
        rw [hsplit] at hv
        have h27 : (2 : Nat) ^ 7 = 128 := by norm_num
        omega
      have := ih (v >>> 7) h7
      simp only [List.length_cons]
      omega
    · rw [pb_write_varint_eq_last (by omega)]
      simp

/-- Every byte of a written varint is below 256. -/
theorem pb_write_varint_bytes_lt (v : Nat) :
    ∀ b ∈ pb_write_varint v, b < 256 := by
  induction v using Nat.strong_induction_on with
  | _ v ih =>
    by_cases h : 0x80 ≤ v
    · rw [pb_write_varint_eq_cont h]
      intro b hb
      rcases List.mem_cons.mp hb with hb | hb
      · subst hb
        exact cont_byte_lt_256 v
      · exact ih (v >>> 7) (by
          rw [Nat.shiftRight_eq_div_pow]
          exact Nat.div_lt_self (by omega) (by norm_num)) b hb
    · rw [pb_write_varint_eq_last (by omega)]
      intro b hb
      rcases List.mem_singleton.mp hb with rfl
      have : v &&& 127 ≤ 127 := Nat.and_le_right
      omega

/-- A written varint is never empty. -/
theorem pb_write_varint_length_pos (v : Nat) : 1 ≤ (pb_write_varint v).length := by
  by_cases h : 0x80 ≤ v
  · rw [pb_write_varint_eq_cont h]
    simp
  · rw [pb_write_varint_eq_last (by omega)]
    simp

/-- All bytes of a written varint except the last carry the continuation bit. -/
theorem pb_write_varint_cont_bits (v : Nat) : ∀ i, i + 1 < (pb_write_varint v).length →
    ((pb_write_varint v).getD i 0) &&& 0x80 = 0x80 := by
  induction v using Nat.strong_induction_on with
  | _ v ih =>
    intro i hi
    by_cases h : 0x80 ≤ v
    · rw [pb_write_varint_eq_cont h] at hi ⊢
      match i with
      | 0 =>
        rw [List.getD_cons_zero]
        exact cont_byte_and_128 v
      | i + 1 =>
        rw [List.getD_cons_succ]
        apply ih (v >>> 7) (by
          rw [Nat.shiftRight_eq_div_pow]
          exact Nat.div_lt_self (by omega) (by norm_num))
        simp only [List.length_cons] at hi
        omega
    · rw [pb_write_varint_eq_last (by omega)] at hi
      simp at hi

/-- The last byte of a written varint has the continuation bit clear. -/
theorem pb_write_varint_last_bit (v : Nat) :
    ((pb_write_varint v).getD ((pb_write_varint v).length - 1) 0) &&& 0x80 = 0 := by
  induction v using Nat.strong_induction_on with
  | _ v ih =>
    by_cases h : 0x80 ≤ v
    · rw [pb_write_varint_eq_cont h]
      have hpos := pb_write_varint_length_pos (v >>> 7)
      simp only [List.length_cons]
      rw [show (pb_write_varint (v >>> 7)).length + 1 - 1
          = ((pb_write_varint (v >>> 7)).length - 1) + 1 from by omega]
      rw [List.getD_cons_succ]
      exact ih (v >>> 7) (by
        rw [Nat.shiftRight_eq_div_pow]
        exact Nat.div_lt_self (by omega) (by norm_num))
    · rw [pb_write_varint_eq_last (by omega)]
      simp only [List.length_singleton, Nat.sub_self, List.getD_cons_zero]
      rw [Nat.and_assoc]
      rw [show ((0x7f : Nat) &&& 0x80) = 0 from by decide]
      exact Nat.and_zero v

/-- Byte `i` of a written varint carries payload bits `7 i` to `7 i + 6`. -/
theorem pb_write_varint_payload (v : Nat) : ∀ i, i < (pb_write_varint v).length →
    ((pb_write_varint v).getD i 0) &&& 0x7f = (v >>> (7 * i)) &&& 0x7f := by
  induction v using Nat.strong_induction_on with
  | _ v ih =>
    intro i hi
    by_cases h : 0x80 ≤ v
    · rw [pb_write_varint_eq_cont h] at hi ⊢
      match i with
      | 0 =>
        rw [List.getD_cons_zero, cont_byte_and_127]
        simp
      | i + 1 =>
        rw [List.getD_cons_succ]
        rw [ih (v >>> 7) (by
          rw [Nat.shiftRight_eq_div_pow]
          exact Nat.div_lt_self (by omega) (by norm_num)) i (by
          simp only [List.length_cons] at hi
          omega)]
        rw [← Nat.shiftRight_add]
        congr 2
        ring
    · rw [pb_write_varint_eq_last (by omega)] at hi ⊢
      simp only [List.length_singleton] at hi
      match i with
      | 0 =>
        rw [List.getD_cons_zero]
        rw [Nat.and_assoc]
        simp

/-! ### Failure characterization of pb_parse_varint -/

/-- The failure condition of `pb_parse_varint`: no byte with a clear
continuation bit occurs among the bytes the parse loop can visit (the first
ten, since the shift reaches 64 after ten continuation bytes). -/
def no_terminator (src : List Nat) : Prop :=
  ∀ i, i < src.length → i < 10 → ¬ ((src.getD i 0) &&& 0x80 = 0)

instance no_terminator_decidable (src : List Nat) : Decidable (no_terminator src) := by
  unfold no_terminator
  infer_instance

/-- The parse loop returns `(0, 0)` exactly when its remaining window holds no
terminating byte. -/
theorem parse_go_zero_iff : ∀ (src : List Nat) (offset value k : Nat),
    (pb_parse_varint_go src offset value (7 * k) = (0, 0) ↔
      ∀ i, i < src.length → i + k < 10 → ¬ ((src.getD i 0) &&& 0x80 = 0)) := by
  intro src
  induction src with
  | nil =>
    intro offset value k
    simp [pb_parse_varint_go]
  | cons b rest ih =>
    intro offset value k
    by_cases hk : k < 10
    · simp only [pb_parse_varint_go]
      rw [if_pos (show 7 * k < 64 by omega)]
      by_cases hb : b &&& 0x80 = 0
      · rw [if_pos hb]
        constructor
        · intro heq
          have : offset + 1 = 0 := congrArg Prod.snd heq
          omega
        · intro hall
          exact absurd hb (hall 0 (by simp) (by omega))
      · rw [if_neg hb]
        rw [show 7 * k + 7 = 7 * (k + 1) from by ring]
        rw [ih (offset + 1) (value ||| (((b &&& 0x7f) <<< (7 * k)) % 2 ^ 64)) (k + 1)]
        constructor
        · intro hall i hi hik
          match i with
          | 0 => exact hb
          | i + 1 =>
            rw [List.getD_cons_succ]
            exact hall i (by
              simp only [List.length_cons] at hi
              omega) (by omega)
        · intro hall i hi hik
          have := hall (i + 1) (by
            simp only [List.length_cons]
            omega) (by omega)
          rw [List.getD_cons_succ] at this
          exact this
    · simp only [pb_parse_varint_go]
      rw [if_neg (show ¬ (7 * k < 64) by omega)]
      constructor
      · intro _ i hi hik
        omega
      · intro _
        rfl

/-- The parse loop either fails with `(0, 0)` or consumes at least one byte. -/
theorem parse_go_pos : ∀ (src : List Nat) (offset value shift : Nat),
    pb_parse_varint_go src offset value shift = (0, 0) ∨
      0 < (pb_parse_varint_go src offset value shift).2 := by
  intro src
  induction src with
  | nil =>
    intro offset value shift
    left
    rfl
  | cons b rest ih =>
    intro offset value shift
    simp only [pb_parse_varint_go]
    by_cases hs : shift < 64
    · rw [if_pos hs]
      by_cases hb : b &&& 0x80 = 0
      · rw [if_pos hb]
        right
        simp
      · rw [if_neg hb]
        exact ih (offset + 1) _ (shift + 7)
    · rw [if_neg hs]
      left
      rfl

/-! ### Claim theorems: primitive codec -/

/-- **C3**: for every u64 value `v`, `pb_parse_varint (pb_write_varint v)`
returns `(v, n)` where `n` is exactly the number of bytes written, `n` is at
most 10 (`PB_VARINT_MAX_SIZE_64`), and the written bytes are little-endian
base-128 groups with the continuation bit `0x80` set on every byte except the
last. -/
theorem claim_C3_varint_inverse (v : Nat) (h : v < 2 ^ 64) :
    pb_parse_varint (pb_write_varint v) = (v, (pb_write_varint v).length) ∧
    (pb_write_varint v).length ≤ PB_VARINT_MAX_SIZE_64 ∧
    (∀ i, i + 1 < (pb_write_varint v).length →
      ((pb_write_varint v).getD i 0) &&& 0x80 = 0x80) ∧
    ((pb_write_varint v).getD ((pb_write_varint v).length - 1) 0) &&& 0x80 = 0 ∧
    (∀ i, i < (pb_write_varint v).length →
      ((pb_write_varint v).getD i 0) &&& 0x7f = (v >>> (7 * i)) &&& 0x7f) := by
  refine ⟨pb_parse_write_varint v h, ?_, pb_write_varint_cont_bits v,
    pb_write_varint_last_bit v, pb_write_varint_payload v⟩
  have h70 : v < 2 ^ (7 * (9 + 1)) :=
    Nat.lt_of_lt_of_le h (Nat.pow_le_pow_right (by norm_num) (by norm_num))
  have := pb_write_varint_length_le 9 v h70
  simpa [PB_VARINT_MAX_SIZE_64] using this

/-- Witness for C3 at the concrete input 300 (a two-byte varint). -/
theorem claim_C3_varint_inverse_witness :
    pb_parse_varint (pb_write_varint 300) = (300, (pb_write_varint 300).length) ∧
    (pb_write_varint 300).length ≤ PB_VARINT_MAX_SIZE_64 ∧
    (∀ i, i + 1 < (pb_write_varint 300).length →
      ((pb_write_varint 300).getD i 0) &&& 0x80 = 0x80) ∧
    ((pb_write_varint 300).getD ((pb_write_varint 300).length - 1) 0) &&& 0x80 = 0 ∧
    (∀ i, i < (pb_write_varint 300).length →
      ((pb_write_varint 300).getD i 0) &&& 0x7f = (300 >>> (7 * i)) &&& 0x7f) :=
  claim_C3_varint_inverse 300 (by norm_num)

/-- **C4**: `pb_zigzag_decode32 (pb_zigzag_encode32 v) = v` for every i32 `v`,
and `pb_zigzag_decode64 (pb_zigzag_encode64 v) = v` for every i64 `v`,
including the boundary values. -/
theorem claim_C4_zigzag_inverse (v32 v64 : Int)
    (h32l : -(2 ^ 31) ≤ v32) (h32u : v32 < 2 ^ 31)
    (h64l : -(2 ^ 63) ≤ v64) (h64u : v64 < 2 ^ 63) :
    pb_zigzag_decode32 (pb_zigzag_encode32 v32) = v32 ∧
    pb_zigzag_decode64 (pb_zigzag_encode64 v64) = v64 :=
  ⟨pb_zigzag32_roundtrip v32 h32l h32u, pb_zigzag64_roundtrip v64 h64l h64u⟩

/-- Witness for C4 at the boundary values `i32::MIN`, `i64::MIN`, `0`, `-1`. -/
theorem claim_C4_zigzag_inverse_witness :
    (pb_zigzag_decode32 (pb_zigzag_encode32 (-(2 ^ 31))) = -(2 ^ 31) ∧
      pb_zigzag_decode64 (pb_zigzag_encode64 (-(2 ^ 63))) = -(2 ^ 63)) ∧
    (pb_zigzag_decode32 (pb_zigzag_encode32 0) = 0 ∧
      pb_zigzag_decode64 (pb_zigzag_encode64 (-1)) = -1) :=
  ⟨claim_C4_zigzag_inverse (-(2 ^ 31)) (-(2 ^ 63))
      (by norm_num) (by norm_num) (by norm_num) (by norm_num),
   claim_C4_zigzag_inverse 0 (-1)
      (by norm_num) (by norm_num) (by norm_num) (by norm_num)⟩

/-- **C6**: `pb_parse_varint src` returns `(0, 0)` exactly when the varint
cannot be fully parsed (buffer exhausted before a terminating byte, or 64 bits
of shift consumed); in every other case the consumed byte count is strictly
positive. -/
theorem claim_C6_parse_varint_failure (src : List Nat) :
    (pb_parse_varint src = (0, 0) ↔ no_terminator src) ∧
    (¬ no_terminator src → 0 < (pb_parse_varint src).2) := by
  have hk := parse_go_zero_iff src 0 0 0
  have hiff : pb_parse_varint src = (0, 0) ↔ no_terminator src := by
    unfold pb_parse_varint no_terminator
    constructor
    · intro hp i hi h10
      exact (hk.mp hp) i hi (by omega)
    · intro hnt
      exact hk.mpr (fun i hi hik => hnt i hi (by omega))
  refine ⟨hiff, ?_⟩
  intro hnt
  rcases parse_go_pos src 0 0 0 with h | h
  · exact absurd (hiff.mp h) hnt
  · exact h

/-- Witness for C6: a buffer of two continuation bytes fails with `(0, 0)`; a
buffer with a terminating second byte consumes a positive number of bytes. -/
theorem claim_C6_parse_varint_failure_witness :
    pb_parse_varint [0x80, 0x80] = (0, 0) ∧ 0 < (pb_parse_varint [0x80, 0x03]).2 :=
  ⟨(claim_C6_parse_varint_failure [0x80, 0x80]).1.mpr (by decide),
   (claim_C6_parse_varint_failure [0x80, 0x03]).2 (by decide)⟩

/-!
### Wire decoder

The Rust iterator (`pb_decoder.rs`) delegates the per-field parse to
`PerfettoPbDecoderParseField` of the repository's C core, which is not among
the Rust sources; that step is modelled from the specification ("Each step
reads a tag varint, splits it into `(field_number, wire_type)`, then reads the
payload according to wire type ...; an unrecognized wire type value yields one
terminal error item and then the sequence ends").  The decoder state
`(read_ptr, end_ptr)` is represented by the remaining suffix of the buffer.
-/

/-- Protobuf decoder field types (pb_decoder.rs lines 28-38).  A `Delimited`
payload is the zero-copy sub-slice of the buffer. -/
inductive PbDecoderField where
  | Varint (value : Nat)
  | Fixed64 (value : Nat)
  | Delimited (data : List Nat)
  | Fixed32 (value : Nat)
deriving DecidableEq

/-- One item of the decoder iteration (pb_decoder.rs lines 72-105):
`ok id field` for `Ok((id, field))`, `err wt` for
`Err(PbDecoderError::InvalidWireType(wt))`. -/
inductive PbDecoderItem where
  | ok (id : Nat) (field : PbDecoderField)
  | err (wire_type : Nat)
deriving DecidableEq

/-- The value union of `PerfettoPbDecoderField`: only the member matching the
wire type is meaningful; the others keep their defaults. -/
structure PbRawValue where
  integer64 : Nat := 0
  integer32 : Nat := 0
  delimited : List Nat := []
deriving DecidableEq

/-- Result of one `PerfettoPbDecoderParseField` call: a non-OK status (the
Rust iterator then returns `None`), or a field with the advanced cursor. -/
inductive PbParseFieldResult where
  | stop
  | field (id : Nat) (wireType : Nat) (value : PbRawValue) (remaining : List Nat)
deriving DecidableEq

/-- Little-endian read of a fixed-width value from a byte list. -/
def read_le : List Nat → Nat
  | [] => 0
  | b :: rest => (b % 256) + 256 * read_le rest

/-- Modelled from the spec: payload dispatch of `PerfettoPbDecoderParseField`
(C core, not among the Rust sources).  "varint → `parse_varint`;
fixed64/fixed32 → raw little-endian read; length-delimited → read a length
varint then return a zero-copy sub-slice of exactly that many bytes"; an
unrecognized wire type is surfaced with an OK status (so the Rust layer can
report `InvalidWireType`) and the cursor moved to the end of the buffer, so
the sequence ends after that item. -/
def decodePayload (id wt : Nat) (body : List Nat) : PbParseFieldResult :=
  if wt = 0 then
    if (pb_parse_varint body).2 = 0 then .stop
    else .field id 0 ⟨(pb_parse_varint body).1, 0, []⟩ (body.drop (pb_parse_varint body).2)
  else if wt = 1 then
    if body.length < 8 then .stop
    else .field id 1 ⟨read_le (body.take 8), 0, []⟩ (body.drop 8)
  else if wt = 2 then
    if (pb_parse_varint body).2 = 0 then .stop
    else if (body.drop (pb_parse_varint body).2).length < (pb_parse_varint body).1 then .stop
    else .field id 2 ⟨0, 0, (body.drop (pb_parse_varint body).2).take (pb_parse_varint body).1⟩
      ((body.drop (pb_parse_varint body).2).drop (pb_parse_varint body).1)
  else if wt = 5 then
    if body.length < 4 then .stop
    else .field id 5 ⟨0, read_le (body.take 4), []⟩ (body.drop 4)
  else .field id wt ⟨0, 0, []⟩ []

/-- Modelled from the spec: `PerfettoPbDecoderParseField` (C core).  At the
end of the buffer the status is DONE; a tag that cannot be parsed is a decode
failure; otherwise the tag is split as `id = (tag >> 3) as u32`,
`wt = tag & 7`, and the payload is read according to the wire type. -/
def pbDecoderParseField (data : List Nat) : PbParseFieldResult :=
  if data.isEmpty then .stop
  else if (pb_parse_varint data).2 = 0 then .stop
  else decodePayload (((pb_parse_varint data).1 >>> 3) % 2 ^ 32)
    ((pb_parse_varint data).1 &&& 7) (data.drop (pb_parse_varint data).2)

/-- Embedding of `PbDecoder::next` (pb_decoder.rs lines 75-105): a non-OK
status ends the iteration; otherwise the wire type is converted through
`TryFrom<u32>` and the matching union member is read; a failed conversion
yields the `InvalidWireType` error item. -/
def pbDecoderNextItem (data : List Nat) : Option (PbDecoderItem × List Nat) :=
  match pbDecoderParseField data with
  | .stop => none
  | .field id wt v remaining =>
    match pbWireTypeTryFrom wt with
    | some .Varint => some (.ok id (.Varint v.integer64), remaining)
    | some .Fixed64 => some (.ok id (.Fixed64 v.integer64), remaining)
    | some .Delimited => some (.ok id (.Delimited v.delimited), remaining)
    | some .Fixed32 => some (.ok id (.Fixed32 v.integer32), remaining)
    | none => some (.err wt, remaining)

/-- The decoder iteration, driven with explicit fuel (each yielded item
strictly consumes input, so `data.length + 1` fuel always suffices). -/
def pbDecoderRun : Nat → List Nat → List PbDecoderItem
  | 0, _ => []
  | fuel + 1, data =>
    match pbDecoderNextItem data with
    | none => []
    | some (item, remaining) => item :: pbDecoderRun fuel remaining

/-- All items yielded by iterating `PbDecoder` over `data`. -/
def pbDecoderItems (data : List Nat) : List PbDecoderItem :=
  pbDecoderRun (data.length + 1) data

/-- A successfully parsed field strictly advances the cursor. -/
theorem pbDecoderParseField_shrink {data : List Nat} {id wt v rem}
    (h : pbDecoderParseField data = .field id wt v rem) :
    rem.length < data.length := by
  unfold pbDecoderParseField decodePayload at h
  by_cases hd : data.isEmpty
  · rw [if_pos hd] at h
    exact absurd h (by simp)
  · rw [if_neg hd] at h
    have hlen : 1 ≤ data.length := by
      cases data
      · simp at hd
      · simp
    repeat' split at h
    all_goals cases h
    all_goals simp only [List.length_drop, List.length_nil]
    all_goals omega

/-- A yielded item strictly consumes input. -/
theorem pbDecoderNextItem_shrink {data : List Nat} {item rem}
    (h : pbDecoderNextItem data = some (item, rem)) :
    rem.length < data.length := by
  unfold pbDecoderNextItem at h
  split at h
  · exact absurd h (by simp)
  · rename_i id wt v remaining heq
    have hshrink := pbDecoderParseField_shrink heq
    split at h <;>
      simp only [Option.some.injEq, Prod.mk.injEq] at h <;>
      obtain ⟨h1, h2⟩ := h <;>
      subst h2 <;>
      exact hshrink


/-- The fuel argument of `pbDecoderRun` is irrelevant once it exceeds the
buffer length. -/
theorem pbDecoderRun_congr : ∀ (f1 f2 : Nat) (data : List Nat),
    data.length < f1 → data.length < f2 →
    pbDecoderRun f1 data = pbDecoderRun f2 data := by
  intro f1
  induction f1 with
  | zero =>
    intro f2 data h1 h2
    omega
  | succ f1 ih =>
    intro f2 data h1 h2
    match f2 with
    | 0 => omega
    | f2 + 1 =>
      simp only [pbDecoderRun]
      rcases h : pbDecoderNextItem data with _ | ⟨item, rem⟩
      · rfl
      · have hlen := pbDecoderNextItem_shrink h
        show item :: pbDecoderRun f1 rem = item :: pbDecoderRun f2 rem
        rw [ih f2 rem (by omega) (by omega)]

/-- Unfolding one step of the decoder iteration. -/
theorem pbDecoderItems_step {data : List Nat} {item rem}
    (h : pbDecoderNextItem data = some (item, rem)) :
    pbDecoderItems data = item :: pbDecoderItems rem := by
  unfold pbDecoderItems
  have hlen := pbDecoderNextItem_shrink h
  simp only [pbDecoderRun]
  rw [h]
  show item :: pbDecoderRun data.length rem = item :: pbDecoderRun (rem.length + 1) rem
  rw [pbDecoderRun_congr data.length (rem.length + 1) rem (by omega) (by omega)]

/-- The iteration ends when the next step yields nothing. -/
theorem pbDecoderItems_stop {data : List Nat}
    (h : pbDecoderNextItem data = none) :
    pbDecoderItems data = [] := by
  unfold pbDecoderItems
  simp only [pbDecoderRun]
  rw [h]

/-!
### Message writer

Embedding of `src/contrib/rust-sdk/perfetto/src/pb_msg.rs`.  The Chunked
Output Stream and its chunk provider live in the repository's C core, so the
stream is modelled from the spec through its observable content: a single
contiguous byte buffer (the heap buffer concatenates the chunks, and
annotate-patch translates a reserved pointer to an equally-writable location,
so the logical content is that of one unbounded chunk).  `reserve` hands out
the current offset; `available` never runs out in this view, hence the
`patch_stack` overflow branch of `append_bytes` is never taken and patching
happens only in `finalize`.  The chunked behaviour itself (patch_stack,
chunk exhaustion) is modelled separately below for the invariant claims.
-/

/-- `PROTOZERO_MESSAGE_LENGTH_FIELD_SIZE` (pb_msg.rs line 49). -/
def PROTOZERO_MESSAGE_LENGTH_FIELD_SIZE : Nat := 4

/-- The per-message state of `PbMsg` (pb_msg.rs lines 84-88): the running
`size` and the placeholder offset of `PbMsgSizeField.ptr` (`none` models the
null pointer). -/
structure PbMsgFrame where
  size : Nat
  ph : Option Nat
deriving DecidableEq

/-- Embedding of `PbMsg::append_bytes` (pb_msg.rs lines 107-113) over the
single-chunk stream: the bytes are appended and the running size grows by
their count. -/
def pbMsgAppendBytes (buf : List Nat) (f : PbMsgFrame) (bytes : List Nat) :
    List Nat × PbMsgFrame :=
  (buf ++ bytes, { f with size := f.size + bytes.length })

/-- Embedding of `PbMsg::append_byte` (pb_msg.rs lines 116-118). -/
def pbMsgAppendByte (buf : List Nat) (f : PbMsgFrame) (value : Nat) :
    List Nat × PbMsgFrame :=
  pbMsgAppendBytes buf f [value]

/-- Embedding of `PbMsg::append_varint` (pb_msg.rs lines 121-125). -/
def pbMsgAppendVarint (buf : List Nat) (f : PbMsgFrame) (value : Nat) :
    List Nat × PbMsgFrame :=
  pbMsgAppendBytes buf f (pb_write_varint value)

/-- Embedding of `PbMsg::append_fixed32` (pb_msg.rs lines 128-132). -/
def pbMsgAppendFixed32 (buf : List Nat) (f : PbMsgFrame) (value : Nat) :
    List Nat × PbMsgFrame :=
  pbMsgAppendBytes buf f (pb_write_fixed32 value)

/-- Embedding of `PbMsg::append_fixed64` (pb_msg.rs lines 135-139). -/
def pbMsgAppendFixed64 (buf : List Nat) (f : PbMsgFrame) (value : Nat) :
    List Nat × PbMsgFrame :=
  pbMsgAppendBytes buf f (pb_write_fixed64 value)

/-- Embedding of `PbMsg::append_type0_field` (pb_msg.rs lines 142-149): tag
varint then value varint, appended in a single `append_bytes`. -/
def pbMsgAppendType0Field (buf : List Nat) (f : PbMsgFrame) (field_id value : Nat) :
    List Nat × PbMsgFrame :=
  pbMsgAppendBytes buf f
    (pb_write_varint (pb_make_tag field_id .Varint) ++ pb_write_varint value)

/-- Embedding of `PbMsg::append_type2_field` (pb_msg.rs lines 152-160): tag
and length in one `append_bytes`, then the payload in a second. -/
def pbMsgAppendType2Field (buf : List Nat) (f : PbMsgFrame) (field_id : Nat)
    (data : List Nat) : List Nat × PbMsgFrame :=
  let s1 := pbMsgAppendBytes buf f
    (pb_write_varint (pb_make_tag field_id .Delimited) ++ pb_write_varint data.length)
  pbMsgAppendBytes s1.1 s1.2 data

/-- Embedding of `PbMsg::append_fixed32_field` (pb_msg.rs lines 163-170). -/
def pbMsgAppendFixed32Field (buf : List Nat) (f : PbMsgFrame) (field_id value : Nat) :
    List Nat × PbMsgFrame :=
  pbMsgAppendBytes buf f
    (pb_write_varint (pb_make_tag field_id .Fixed32) ++ pb_write_fixed32 value)

/-- Embedding of `PbMsg::append_fixed64_field` (pb_msg.rs lines 178-185). -/
def pbMsgAppendFixed64Field (buf : List Nat) (f : PbMsgFrame) (field_id value : Nat) :
    List Nat × PbMsgFrame :=
  pbMsgAppendBytes buf f
    (pb_write_varint (pb_make_tag field_id .Fixed64) ++ pb_write_fixed64 value)

/-- The four placeholder writes of `PbMsg::finalize` (pb_msg.rs lines
230-246): the `for i in 0..4` loop unrolled at its constant bound.  Byte `i`
holds `(size >> (7 * i)) & 0xff`, with the `0x80` msb forced on bytes 0-2. -/
def pbMsgFinalizeWrite (buf : List Nat) (ph : Nat) (size : Nat) : List Nat :=
  (((buf.set ph ((size &&& 0xff) ||| 0x80)).set (ph + 1)
      (((size >>> 7) &&& 0xff) ||| 0x80)).set (ph + 2)
      (((size >>> 14) &&& 0xff) ||| 0x80)).set (ph + 3)
      ((size >>> 21) &&& 0xff)

/-- Embedding of `PbMsg::finalize` (pb_msg.rs lines 227-248): if the
placeholder pointer is non-null, write the redundant varint of the running
size into it and null the pointer; always return the running size. -/
def pbMsgFinalize (buf : List Nat) (f : PbMsgFrame) : (List Nat × PbMsgFrame) × Nat :=
  match f.ph with
  | some ph => ((pbMsgFinalizeWrite buf ph f.size, { f with ph := none }), f.size)
  | none => ((buf, f), f.size)

/-- One emission into a `PbMsg`: the field-level helpers, the raw append
operations, and `append_nested` with its body as a sub-programme. -/
inductive PbEmit where
  | varintField (field_id value : Nat)
  | delimitedField (field_id : Nat) (data : List Nat)
  | fixed32Field (field_id value : Nat)
  | fixed64Field (field_id value : Nat)
  | rawBytes (bytes : List Nat)
  | rawByte (value : Nat)
  | rawVarint (value : Nat)
  | rawFixed32 (value : Nat)
  | rawFixed64 (value : Nat)
  | nested (field_id : Nat) (body : List PbEmit)

mutual

/-- Run one emission against the writer state, mirroring the corresponding
`PbMsg` method; `nested` mirrors `PbMsg::append_nested` (pb_msg.rs lines
198-224): tag varint, 4-byte reservation (offset recorded as the child's
placeholder), child run, child `finalize`, and the parent size update. -/
def pbMsgRunEmit (buf : List Nat) (f : PbMsgFrame) : PbEmit → List Nat × PbMsgFrame
  | .varintField id v => pbMsgAppendType0Field buf f id v
  | .delimitedField id data => pbMsgAppendType2Field buf f id data
  | .fixed32Field id v => pbMsgAppendFixed32Field buf f id v
  | .fixed64Field id v => pbMsgAppendFixed64Field buf f id v
  | .rawBytes bytes => pbMsgAppendBytes buf f bytes
  | .rawByte v => pbMsgAppendByte buf f v
  | .rawVarint v => pbMsgAppendVarint buf f v
  | .rawFixed32 v => pbMsgAppendFixed32 buf f v
  | .rawFixed64 v => pbMsgAppendFixed64 buf f v
  | .nested id body =>
    let s1 := pbMsgAppendVarint buf f (pb_make_tag id .Delimited)
    let ph := s1.1.length
    let buf2 := s1.1 ++ List.replicate PROTOZERO_MESSAGE_LENGTH_FIELD_SIZE 0
    let f2 : PbMsgFrame := { s1.2 with size := s1.2.size + PROTOZERO_MESSAGE_LENGTH_FIELD_SIZE }
    let s3 := pbMsgRunEmits buf2 { size := 0, ph := some ph } body
    let fin := pbMsgFinalize s3.1 s3.2
    (fin.1.1, { f2 with size := f2.size + fin.2 })

/-- Run a list of emissions in order. -/
def pbMsgRunEmits (buf : List Nat) (f : PbMsgFrame) : List PbEmit → List Nat × PbMsgFrame
  | [] => (buf, f)
  | e :: es =>
    let s := pbMsgRunEmit buf f e
    pbMsgRunEmits s.1 s.2 es

end

/-- Encode a sequence of emissions from a fresh root writer (`PbMsg::new`
starts with a null placeholder and zero size). -/
def pbMsgEncode (es : List PbEmit) : List Nat :=
  (pbMsgRunEmits [] { size := 0, ph := none } es).1

/-- The four bytes `finalize` stores for a message of size `size`. -/
def finalize_bytes (size : Nat) : List Nat :=
  [(size &&& 0xff) ||| 0x80, ((size >>> 7) &&& 0xff) ||| 0x80,
   ((size >>> 14) &&& 0xff) ||| 0x80, (size >>> 21) &&& 0xff]

theorem finalize_bytes_length (s : Nat) : (finalize_bytes s).length = 4 := rfl

mutual

/-- The bytes one emission contributes to the stream (nested messages
contribute their tag, the patched placeholder, and their body). -/
def pbEmitBytes : PbEmit → List Nat
  | .varintField id v => pb_write_varint (pb_make_tag id .Varint) ++ pb_write_varint v
  | .delimitedField id data =>
      pb_write_varint (pb_make_tag id .Delimited) ++ pb_write_varint data.length ++ data
  | .fixed32Field id v => pb_write_varint (pb_make_tag id .Fixed32) ++ pb_write_fixed32 v
  | .fixed64Field id v => pb_write_varint (pb_make_tag id .Fixed64) ++ pb_write_fixed64 v
  | .rawBytes bytes => bytes
  | .rawByte v => [v]
  | .rawVarint v => pb_write_varint v
  | .rawFixed32 v => pb_write_fixed32 v
  | .rawFixed64 v => pb_write_fixed64 v
  | .nested id body =>
      pb_write_varint (pb_make_tag id .Delimited) ++
        (finalize_bytes (pbEmitListBytes body).length ++ pbEmitListBytes body)

/-- The bytes a list of emissions contributes. -/
def pbEmitListBytes : List PbEmit → List Nat
  | [] => []
  | e :: es => pbEmitBytes e ++ pbEmitListBytes es

end

/-- Setting an element past a prefix acts on the suffix. -/
theorem set_append_add (a : List Nat) : ∀ (t : List Nat) (k y : Nat),
    (a ++ t).set (a.length + k) y = a ++ t.set k y := by
  induction a with
  | nil =>
    intro t k y
    simp
  | cons x a ih =>
    intro t k y
    simp only [List.cons_append, List.length_cons]
    rw [show a.length + 1 + k = (a.length + k) + 1 from by omega]
    rw [List.set_cons_succ]
    rw [ih]

/-- `pbMsgFinalizeWrite` on a buffer split around the four placeholder bytes
replaces them by `finalize_bytes`. -/
theorem pbMsgFinalizeWrite_splice (a c : List Nat) (p0 p1 p2 p3 s : Nat) :
    pbMsgFinalizeWrite (a ++ p0 :: p1 :: p2 :: p3 :: c) a.length s
      = a ++ finalize_bytes s ++ c := by
  have e0 : ∀ (t : List Nat) (y : Nat), (a ++ t).set a.length y = a ++ t.set 0 y := by
    intro t y
    have h := set_append_add a t 0 y
    rw [Nat.add_zero] at h
    exact h
  have e1 : ∀ (t : List Nat) (y : Nat), (a ++ t).set (a.length + 1) y = a ++ t.set 1 y :=
    fun t y => set_append_add a t 1 y
  have e2 : ∀ (t : List Nat) (y : Nat), (a ++ t).set (a.length + 2) y = a ++ t.set 2 y :=
    fun t y => set_append_add a t 2 y
  have e3 : ∀ (t : List Nat) (y : Nat), (a ++ t).set (a.length + 3) y = a ++ t.set 3 y :=
    fun t y => set_append_add a t 3 y
  unfold pbMsgFinalizeWrite finalize_bytes
  rw [e0, e1, e2, e3]
  simp

mutual

/-- Running one emission appends exactly `pbEmitBytes e` and grows the
running size by that byte count. -/
theorem pbMsgRunEmit_spec (e : PbEmit) : ∀ (buf : List Nat) (f : PbMsgFrame),
    pbMsgRunEmit buf f e
      = (buf ++ pbEmitBytes e, { f with size := f.size + (pbEmitBytes e).length }) := by
  intro buf f
  match e with
  | .varintField id v =>
    simp [pbMsgRunEmit, pbMsgAppendType0Field, pbMsgAppendBytes, pbEmitBytes]
  | .delimitedField id data =>
    simp [pbMsgRunEmit, pbMsgAppendType2Field, pbMsgAppendBytes, pbEmitBytes]
    omega
  | .fixed32Field id v =>
    simp [pbMsgRunEmit, pbMsgAppendFixed32Field, pbMsgAppendBytes, pbEmitBytes]
  | .fixed64Field id v =>
    simp [pbMsgRunEmit, pbMsgAppendFixed64Field, pbMsgAppendBytes, pbEmitBytes]
  | .rawBytes bytes =>
    simp [pbMsgRunEmit, pbMsgAppendBytes, pbEmitBytes]
  | .rawByte v =>
    simp [pbMsgRunEmit, pbMsgAppendByte, pbMsgAppendBytes, pbEmitBytes]
  | .rawVarint v =>
    simp [pbMsgRunEmit, pbMsgAppendVarint, pbMsgAppendBytes, pbEmitBytes]
  | .rawFixed32 v =>
    simp [pbMsgRunEmit, pbMsgAppendFixed32, pbMsgAppendBytes, pbEmitBytes]
  | .rawFixed64 v =>
    simp [pbMsgRunEmit, pbMsgAppendFixed64, pbMsgAppendBytes, pbEmitBytes]
  | .nested id body =>
    have hbody := pbMsgRunEmits_spec body
      ((buf ++ pb_write_varint (pb_make_tag id .Delimited)) ++
        List.replicate PROTOZERO_MESSAGE_LENGTH_FIELD_SIZE 0)
      { size := 0, ph := some (buf ++ pb_write_varint (pb_make_tag id .Delimited)).length }
    simp only [pbMsgRunEmit, pbMsgAppendVarint, pbMsgAppendBytes]
    rw [hbody]
    simp only [pbMsgFinalize]
    rw [show List.replicate PROTOZERO_MESSAGE_LENGTH_FIELD_SIZE (0 : Nat)
        = 0 :: 0 :: 0 :: 0 :: ([] : List Nat) from rfl]
    rw [show ((buf ++ pb_write_varint (pb_make_tag id .Delimited)) ++ 0 :: 0 :: 0 :: 0 :: [])
          ++ pbEmitListBytes body
        = (buf ++ pb_write_varint (pb_make_tag id .Delimited))
          ++ 0 :: 0 :: 0 :: 0 :: pbEmitListBytes body from by simp]
    rw [pbMsgFinalizeWrite_splice]
    simp only [pbEmitBytes]
    rw [Prod.mk.injEq]
    constructor
    · simp
    · simp only [PbMsgFrame.mk.injEq, List.length_append, finalize_bytes_length,
        PROTOZERO_MESSAGE_LENGTH_FIELD_SIZE]
      exact ⟨by omega, trivial⟩

/-- Running a list of emissions appends exactly `pbEmitListBytes es` and
grows the running size by that byte count. -/
theorem pbMsgRunEmits_spec (es : List PbEmit) : ∀ (buf : List Nat) (f : PbMsgFrame),
    pbMsgRunEmits buf f es
      = (buf ++ pbEmitListBytes es,
         { f with size := f.size + (pbEmitListBytes es).length }) := by
  intro buf f
  match es with
  | [] =>
    simp [pbMsgRunEmits, pbEmitListBytes]
  | e :: es =>
    have he := pbMsgRunEmit_spec e buf f
    have hes := pbMsgRunEmits_spec es (buf ++ pbEmitBytes e)
      { f with size := f.size + (pbEmitBytes e).length }
    simp only [pbMsgRunEmits]
    rw [he]
    rw [hes]
    simp only [pbEmitListBytes]
    rw [Prod.mk.injEq]
    constructor
    · simp
    · simp only [PbMsgFrame.mk.injEq, List.length_append]
      exact ⟨by omega, trivial⟩

end

/-! ### Tag and placeholder lemmas -/

theorem PbWireType.toNat_lt (w : PbWireType) : w.toNat < 8 := by
  cases w <;> decide

/-- Below `2 ^ 29` the tag shift does not wrap. -/
theorem pb_make_tag_eq (id : Nat) (w : PbWireType) (h : id < 2 ^ 29) :
    pb_make_tag id w = (id <<< 3) ||| w.toNat := by
  unfold pb_make_tag
  rw [Nat.mod_eq_of_lt (shiftLeft_lt_two_pow (show id < 2 ^ (32 - 3) by omega) (by norm_num))]

theorem pb_make_tag_lt (id : Nat) (w : PbWireType) : pb_make_tag id w < 2 ^ 64 := by
  unfold pb_make_tag
  have h1 : (id <<< 3) % 2 ^ 32 < 2 ^ 64 :=
    Nat.lt_of_lt_of_le (Nat.mod_lt _ (by norm_num)) (by norm_num)
  have h2 : w.toNat < 2 ^ 64 := Nat.lt_of_lt_of_le w.toNat_lt (by norm_num)
  exact Nat.or_lt_two_pow h1 h2

/-- The decoder recovers the field id from a non-wrapping tag. -/
theorem tag_shiftRight (id : Nat) (w : PbWireType) (h : id < 2 ^ 29) :
    ((pb_make_tag id w) >>> 3) % 2 ^ 32 = id := by
  rw [pb_make_tag_eq id w h]
  have h1 : ((id <<< 3) ||| w.toNat) >>> 3 = id := by
    apply Nat.eq_of_testBit_eq
    intro i
    rw [Nat.testBit_shiftRight, Nat.testBit_or, Nat.testBit_shiftLeft]
    have e1 : 3 ≤ 3 + i := by omega
    have e2 : 3 + i - 3 = i := by omega
    have e3 : w.toNat.testBit (3 + i) = false :=
      testBit_ge_of_lt (show w.toNat < 2 ^ 3 by have := w.toNat_lt; omega) (by omega)
    simp [e1, e2, e3]
  rw [h1]
  exact Nat.mod_eq_of_lt (by omega)

/-- The decoder recovers the wire type from a non-wrapping tag. -/
theorem tag_and7 (id : Nat) (w : PbWireType) (h : id < 2 ^ 29) :
    (pb_make_tag id w) &&& 7 = w.toNat := by
  rw [pb_make_tag_eq id w h]
  apply Nat.eq_of_testBit_eq
  intro i
  have h7 : (7 : Nat) = 2 ^ 3 - 1 := by norm_num
  rw [Nat.testBit_and, Nat.testBit_or, Nat.testBit_shiftLeft, h7,
    Nat.testBit_two_pow_sub_one]
  by_cases hi : i < 3
  · have e1 : ¬ (3 ≤ i) := by omega
    simp [hi, e1]
  · have e3 : w.toNat.testBit i = false :=
      testBit_ge_of_lt (show w.toNat < 2 ^ 3 by have := w.toNat_lt; omega) (by omega)
    simp [hi, e3]

theorem or_128_and_128 (y : Nat) : (y ||| 128) &&& 128 = 128 := by
  have h7 : (y ||| 128).testBit 7 = true := by
    rw [Nat.testBit_or]
    have h128 : (128 : Nat).testBit 7 = true := by decide
    simp [h128]
  have h := Nat.and_two_pow (y ||| 128) 7
  rw [h7] at h
  norm_num at h
  exact h

theorem or_128_and_127 (y : Nat) : (y ||| 128) &&& 127 = y &&& 127 := by
  apply Nat.eq_of_testBit_eq
  intro i
  have h127 : (127 : Nat) = 2 ^ 7 - 1 := by norm_num
  have h128 : (128 : Nat) = 2 ^ 7 := by norm_num
  rw [Nat.testBit_and, Nat.testBit_or, Nat.testBit_and, h127, h128,
    Nat.testBit_two_pow_sub_one, Nat.testBit_two_pow]
  by_cases hi : i < 7
  · have e1 : ¬ (7 = i) := by omega
    simp [hi, e1]
  · simp [hi]

theorem and_255_and_127 (x : Nat) : (x &&& 255) &&& 127 = x &&& 127 := by
  rw [Nat.and_assoc]
  rw [show ((255 : Nat) &&& 127) = 127 from by decide]

/-- One parse step on a continuation byte. -/
theorem parse_go_step_cont {b : Nat} (hb : ¬ (b &&& 0x80 = 0)) (rest : List Nat)
    (offset value shift : Nat) (hs : shift < 64) :
    pb_parse_varint_go (b :: rest) offset value shift
      = pb_parse_varint_go rest (offset + 1)
          (value ||| (((b &&& 0x7f) <<< shift) % 2 ^ 64)) (shift + 7) := by
  simp only [pb_parse_varint_go]
  rw [if_pos hs, if_neg hb]

/-- One parse step on a terminating byte. -/
theorem parse_go_step_done {b : Nat} (hb : b &&& 0x80 = 0) (rest : List Nat)
    (offset value shift : Nat) (hs : shift < 64) :
    pb_parse_varint_go (b :: rest) offset value shift
      = (value ||| (((b &&& 0x7f) <<< shift) % 2 ^ 64), offset + 1) := by
  simp only [pb_parse_varint_go]
  rw [if_pos hs, if_pos hb]

/-- Recomposition of the four placeholder groups. -/
theorem finalize_value (s : Nat) :
    (((s &&& 127) ||| (((s >>> 7) &&& 127) <<< 7)) ||| (((s >>> 14) &&& 127) <<< 14))
      ||| ((s >>> 21) <<< 21) = s := by
  apply Nat.eq_of_testBit_eq
  intro i
  have h127 : (127 : Nat) = 2 ^ 7 - 1 := by norm_num
  simp only [Nat.testBit_or, Nat.testBit_shiftLeft, Nat.testBit_and,
    Nat.testBit_shiftRight, h127, Nat.testBit_two_pow_sub_one]
  by_cases h1 : i < 7
  · have e1 : ¬ (7 ≤ i) := by omega
    have e2 : ¬ (14 ≤ i) := by omega
    have e3 : ¬ (21 ≤ i) := by omega
    simp [h1, e1, e2, e3]
  · by_cases h2 : i < 14
    · have e1 : 7 ≤ i := by omega
      have e2 : ¬ (14 ≤ i) := by omega
      have e3 : ¬ (21 ≤ i) := by omega
      have e4 : 7 + (i - 7) = i := by omega
      have e5 : i - 7 < 7 := by omega
      simp [h1, e1, e2, e3, e4, e5]
    · by_cases h3 : i < 21
      · have e1 : 7 ≤ i := by omega
        have e2 : 14 ≤ i := by omega
        have e3 : ¬ (21 ≤ i) := by omega
        have e4 : 14 + (i - 14) = i := by omega
        have e5 : i - 14 < 7 := by omega
        have e6 : ¬ (i - 7 < 7) := by omega
        simp [h1, e1, e2, e3, e4, e5, e6]
      · have e1 : 21 ≤ i := by omega
        have e4 : 21 + (i - 21) = i := by omega
        have e6 : ¬ (i - 7 < 7) := by omega
        have e7 : ¬ (i - 14 < 7) := by omega
        simp [h1, e1, e4, e6, e7]

/-- Parsing the redundant 4-byte placeholder of a size below `2 ^ 28`
consumes exactly the four bytes and returns the size. -/
theorem parse_finalize_bytes (s : Nat) (hs : s < 2 ^ 28) (rest : List Nat) :
    pb_parse_varint (finalize_bytes s ++ rest) = (s, 4) := by
  have hs21 : s >>> 21 < 128 := by
    rw [Nat.shiftRight_eq_div_pow]
    omega
  have hb3 : ((s >>> 21) &&& 255) &&& 0x80 = 0 := by
    rw [show (s >>> 21) &&& 255 = s >>> 21 from by
      rw [show (255 : Nat) = 2 ^ 8 - 1 from by norm_num,
        Nat.and_pow_two_sub_one_eq_mod]
      exact Nat.mod_eq_of_lt (by omega)]
    exact and_128_eq_zero_of_lt hs21
  unfold pb_parse_varint finalize_bytes
  simp only [List.cons_append, List.nil_append]
  rw [parse_go_step_cont (by rw [or_128_and_128]; norm_num) _ _ _ _ (by norm_num)]
  rw [parse_go_step_cont (by rw [or_128_and_128]; norm_num) _ _ _ _ (by norm_num)]
  rw [parse_go_step_cont (by rw [or_128_and_128]; norm_num) _ _ _ _ (by norm_num)]
  rw [parse_go_step_done hb3 _ _ _ _ (by norm_num)]
  rw [or_128_and_127, or_128_and_127, or_128_and_127]
  rw [and_255_and_127 s, and_255_and_127 (s >>> 7), and_255_and_127 (s >>> 14),
    and_255_and_127 (s >>> 21)]
  rw [show (s >>> 21) &&& 127 = s >>> 21 from by
    rw [and_127_eq_mod]
    exact Nat.mod_eq_of_lt hs21]
  rw [Nat.shiftLeft_zero]
  rw [Nat.mod_eq_of_lt (show s &&& 127 < 2 ^ 64 from
    Nat.lt_of_le_of_lt Nat.and_le_right (by norm_num))]
  rw [Nat.mod_eq_of_lt (shiftLeft_lt_two_pow
    (show (s >>> 7) &&& 127 < 2 ^ (64 - 7) from
      Nat.lt_of_le_of_lt Nat.and_le_right (by norm_num)) (by norm_num))]
  rw [Nat.mod_eq_of_lt (shiftLeft_lt_two_pow
    (show (s >>> 14) &&& 127 < 2 ^ (64 - 14) from
      Nat.lt_of_le_of_lt Nat.and_le_right (by norm_num)) (by norm_num))]
  rw [Nat.mod_eq_of_lt (shiftLeft_lt_two_pow
    (show s >>> 21 < 2 ^ (64 - 21) from by
      have h43 : (128 : Nat) ≤ 2 ^ (64 - 21) := by norm_num
      omega) (by norm_num))]
  rw [Nat.zero_or]
  rw [finalize_value s]

/-- Little-endian read inverts `pb_write_fixed32` on u32 values. -/
theorem read_le_write_fixed32 (v : Nat) (h : v < 2 ^ 32) :
    read_le (pb_write_fixed32 v) = v := by
  unfold pb_write_fixed32
  simp only [read_le]
  simp only [Nat.shiftRight_eq_div_pow]
  omega

/-- Little-endian read inverts `pb_write_fixed64` on u64 values. -/
theorem read_le_write_fixed64 (v : Nat) (h : v < 2 ^ 64) :
    read_le (pb_write_fixed64 v) = v := by
  unfold pb_write_fixed64
  simp only [read_le]
  simp only [Nat.shiftRight_eq_div_pow]
  omega

/-! ### Round-trip: emissions through encode and decode -/

mutual

/-- Well-formed field emission: the machine-integer arguments are within
their Rust types' ranges (`u32` field id, `u64`/`u32` values, `usize`
length, `u8` bytes), the field id is below `2 ^ 29` (so the tag shift does
not wrap), every nested body's encoded size is below `2 ^ 28` (the
placeholder limit), and no raw (non-field) append is used. -/
def pbEmitWF : PbEmit → Bool
  | .varintField id v => decide (id < 2 ^ 29) && decide (v < 2 ^ 64)
  | .delimitedField id data =>
      decide (id < 2 ^ 29) && decide (data.length < 2 ^ 64)
        && data.all (fun b => decide (b < 256))
  | .fixed32Field id v => decide (id < 2 ^ 29) && decide (v < 2 ^ 32)
  | .fixed64Field id v => decide (id < 2 ^ 29) && decide (v < 2 ^ 64)
  | .nested id body =>
      decide (id < 2 ^ 29) && decide ((pbEmitListBytes body).length < 2 ^ 28)
        && pbEmitListWF body
  | .rawBytes _ => false
  | .rawByte _ => false
  | .rawVarint _ => false
  | .rawFixed32 _ => false
  | .rawFixed64 _ => false

/-- Well-formed emission sequence. -/
def pbEmitListWF : List PbEmit → Bool
  | [] => true
  | e :: es => pbEmitWF e && pbEmitListWF es

end

/-- The decoder item a well-formed field emission is expected to produce:
the same field number, the wire type's constructor, and the same value (a
nested message surfaces as the `Delimited` slice holding its encoded body). -/
def pbEmitItem : PbEmit → PbDecoderItem
  | .varintField id v => .ok id (.Varint v)
  | .delimitedField id data => .ok id (.Delimited data)
  | .fixed32Field id v => .ok id (.Fixed32 v)
  | .fixed64Field id v => .ok id (.Fixed64 v)
  | .nested id body => .ok id (.Delimited (pbEmitListBytes body))
  | .rawBytes _ => .err 0
  | .rawByte _ => .err 0
  | .rawVarint _ => .err 0
  | .rawFixed32 _ => .err 0
  | .rawFixed64 _ => .err 0

mutual

/-- All nested bodies occurring (at any depth) in one emission. -/
def pbEmitBodies : PbEmit → List (List PbEmit)
  | .nested _ body => body :: pbEmitListBodies body
  | .varintField _ _ => []
  | .delimitedField _ _ => []
  | .fixed32Field _ _ => []
  | .fixed64Field _ _ => []
  | .rawBytes _ => []
  | .rawByte _ => []
  | .rawVarint _ => []
  | .rawFixed32 _ => []
  | .rawFixed64 _ => []

/-- All nested bodies occurring (at any depth) in a sequence. -/
def pbEmitListBodies : List PbEmit → List (List PbEmit)
  | [] => []
  | e :: es => pbEmitBodies e ++ pbEmitListBodies es

end

mutual

/-- Well-formedness is inherited by every nested body of one emission. -/
theorem pbEmitBodies_wf (e : PbEmit) (h : pbEmitWF e = true) :
    ∀ b ∈ pbEmitBodies e, pbEmitListWF b = true := by
  match e with
  | .varintField id v => intro b hb; simp [pbEmitBodies] at hb
  | .delimitedField id data => intro b hb; simp [pbEmitBodies] at hb
  | .fixed32Field id v => intro b hb; simp [pbEmitBodies] at hb
  | .fixed64Field id v => intro b hb; simp [pbEmitBodies] at hb
  | .rawBytes bytes => intro b hb; simp [pbEmitBodies] at hb
  | .rawByte v => intro b hb; simp [pbEmitBodies] at hb
  | .rawVarint v => intro b hb; simp [pbEmitBodies] at hb
  | .rawFixed32 v => intro b hb; simp [pbEmitBodies] at hb
  | .rawFixed64 v => intro b hb; simp [pbEmitBodies] at hb
  | .nested id body =>
    intro b hb
    have hwf : pbEmitListWF body = true := by
      have := h
      rw [pbEmitWF] at this
      simp only [Bool.and_eq_true] at this
      exact this.2
    rw [pbEmitBodies] at hb
    rcases List.mem_cons.mp hb with rfl | hb
    · exact hwf
    · exact pbEmitListBodies_wf body hwf b hb

/-- Well-formedness is inherited by every nested body of a sequence. -/
theorem pbEmitListBodies_wf (es : List PbEmit) (h : pbEmitListWF es = true) :
    ∀ b ∈ pbEmitListBodies es, pbEmitListWF b = true := by
  match es with
  | [] => intro b hb; simp [pbEmitListBodies] at hb
  | e :: es =>
    intro b hb
    have h2 : pbEmitWF e = true ∧ pbEmitListWF es = true := by
      have := h
      rw [pbEmitListWF] at this
      simpa [Bool.and_eq_true] using this
    rw [pbEmitListBodies] at hb
    rcases List.mem_append.mp hb with hb | hb
    · exact pbEmitBodies_wf e h2.1 b hb
    · exact pbEmitListBodies_wf es h2.2 b hb

end

/-- `pbDecoderParseField` after a parsed tag. -/
theorem pbDecoderParseField_of_parse {data : List Nat} {tag c : Nat}
    (hne : data ≠ []) (hp : pb_parse_varint data = (tag, c)) (hc : c ≠ 0) :
    pbDecoderParseField data
      = decodePayload ((tag >>> 3) % 2 ^ 32) (tag &&& 7) (data.drop c) := by
  unfold pbDecoderParseField
  rw [hp]
  rw [if_neg (show ¬ data.isEmpty = true from by simp [hne])]
  rw [if_neg (show ¬ ((tag, c).2 = 0) from by simpa using hc)]

/-- `pbDecoderParseField` on a buffer starting with a written tag. -/
theorem pbDecoderParseField_tagged (id : Nat) (w : PbWireType) (hid : id < 2 ^ 29)
    (tail : List Nat) :
    pbDecoderParseField (pb_write_varint (pb_make_tag id w) ++ tail)
      = decodePayload id w.toNat tail := by
  have hp := pb_parse_write_varint_append (pb_make_tag id w) tail (pb_make_tag_lt id w)
  have hlen := pb_write_varint_length_pos (pb_make_tag id w)
  have hne : pb_write_varint (pb_make_tag id w) ++ tail ≠ [] := by
    cases hE : pb_write_varint (pb_make_tag id w) with
    | nil =>
      rw [hE] at hlen
      simp at hlen
    | cons a l => simp [hE]
  rw [pbDecoderParseField_of_parse hne hp (by omega)]
  rw [List.drop_left]
  rw [tag_shiftRight id w hid, tag_and7 id w hid]

/-- `decodePayload` at wire type 0 after a successful varint parse. -/
theorem decodePayload_varint {body : List Nat} {v c : Nat} (id : Nat)
    (hp : pb_parse_varint body = (v, c)) (hc : c ≠ 0) :
    decodePayload id 0 body = .field id 0 ⟨v, 0, []⟩ (body.drop c) := by
  unfold decodePayload
  rw [if_pos rfl, hp]
  rw [if_neg (show ¬ ((v, c).2 = 0) from by simpa using hc)]

/-- `decodePayload` at wire type 2 after a successful length parse. -/
theorem decodePayload_delimited {body : List Nat} {len c : Nat} (id : Nat)
    (hp : pb_parse_varint body = (len, c)) (hc : c ≠ 0)
    (hfit : ¬ ((body.drop c).length < len)) :
    decodePayload id 2 body
      = .field id 2 ⟨0, 0, (body.drop c).take len⟩ ((body.drop c).drop len) := by
  unfold decodePayload
  rw [if_neg (by norm_num), if_neg (by norm_num), if_pos rfl, hp]
  rw [if_neg (show ¬ ((len, c).2 = 0) from by simpa using hc)]
  rw [if_neg (show ¬ ((body.drop (len, c).2).length < (len, c).1) from by simpa using hfit)]

/-- `decodePayload` at wire type 1 with at least eight bytes available. -/
theorem decodePayload_fixed64 {body : List Nat} (id : Nat)
    (hfit : ¬ (body.length < 8)) :
    decodePayload id 1 body
      = .field id 1 ⟨read_le (body.take 8), 0, []⟩ (body.drop 8) := by
  unfold decodePayload
  rw [if_neg (by norm_num), if_pos rfl, if_neg hfit]

/-- `decodePayload` at wire type 5 with at least four bytes available. -/
theorem decodePayload_fixed32 {body : List Nat} (id : Nat)
    (hfit : ¬ (body.length < 4)) :
    decodePayload id 5 body
      = .field id 5 ⟨0, read_le (body.take 4), []⟩ (body.drop 4) := by
  unfold decodePayload
  rw [if_neg (by norm_num), if_neg (by norm_num), if_neg (by norm_num),
    if_pos rfl, if_neg hfit]

/-- `decodePayload` at an unrecognized wire type: the field is surfaced with
the raw wire type and the cursor moves to the end of the buffer. -/
theorem decodePayload_unknown {wt : Nat} (id : Nat) (body : List Nat)
    (h0 : wt ≠ 0) (h1 : wt ≠ 1) (h2 : wt ≠ 2) (h5 : wt ≠ 5) :
    decodePayload id wt body = .field id wt ⟨0, 0, []⟩ [] := by
  unfold decodePayload
  rw [if_neg h0, if_neg h1, if_neg h2, if_neg h5]

/-- One well-formed field emission decodes to its expected item, leaving
exactly the following bytes. -/
theorem pbDecoderNextItem_emit (e : PbEmit) (rest : List Nat)
    (hwf : pbEmitWF e = true) :
    pbDecoderNextItem (pbEmitBytes e ++ rest) = some (pbEmitItem e, rest) := by
  match e with
  | .varintField id v =>
    have hc : id < 2 ^ 29 ∧ v < 2 ^ 64 := by
      rw [pbEmitWF] at hwf
      simpa [Bool.and_eq_true] using hwf
    rw [show pbEmitBytes (PbEmit.varintField id v)
        = pb_write_varint (pb_make_tag id .Varint) ++ pb_write_varint v from by
      rw [pbEmitBytes]]
    rw [List.append_assoc]
    unfold pbDecoderNextItem
    rw [pbDecoderParseField_tagged id .Varint hc.1 (pb_write_varint v ++ rest)]
    rw [show PbWireType.toNat PbWireType.Varint = 0 from rfl]
    have hpv := pb_parse_write_varint_append v rest hc.2
    have hpos := pb_write_varint_length_pos v
    rw [decodePayload_varint id hpv (by omega)]
    rw [List.drop_left]
    rfl
  | .delimitedField id data =>
    have hc : (id < 2 ^ 29 ∧ data.length < 2 ^ 64)
        ∧ ∀ b ∈ data, b < 256 := by
      rw [pbEmitWF] at hwf
      simpa [Bool.and_eq_true, List.all_eq_true] using hwf
    rw [show pbEmitBytes (PbEmit.delimitedField id data)
        = pb_write_varint (pb_make_tag id .Delimited)
          ++ pb_write_varint data.length ++ data from by
      rw [pbEmitBytes]]
    simp only [List.append_assoc]
    unfold pbDecoderNextItem
    rw [pbDecoderParseField_tagged id .Delimited hc.1.1
      (pb_write_varint data.length ++ (data ++ rest))]
    rw [show PbWireType.toNat PbWireType.Delimited = 2 from rfl]
    have hpl := pb_parse_write_varint_append data.length (data ++ rest) hc.1.2
    have hpos := pb_write_varint_length_pos data.length
    rw [decodePayload_delimited id hpl (by omega) (by
      rw [List.drop_left]
      simp only [List.length_append]
      omega)]
    rw [List.drop_left, List.take_left, List.drop_left]
    rfl
  | .fixed32Field id v =>
    have hc : id < 2 ^ 29 ∧ v < 2 ^ 32 := by
      rw [pbEmitWF] at hwf
      simpa [Bool.and_eq_true] using hwf
    rw [show pbEmitBytes (PbEmit.fixed32Field id v)
        = pb_write_varint (pb_make_tag id .Fixed32) ++ pb_write_fixed32 v from by
      rw [pbEmitBytes]]
    rw [List.append_assoc]
    unfold pbDecoderNextItem
    rw [pbDecoderParseField_tagged id .Fixed32 hc.1 (pb_write_fixed32 v ++ rest)]
    rw [show PbWireType.toNat PbWireType.Fixed32 = 5 from rfl]
    rw [decodePayload_fixed32 id (by
      simp only [List.length_append]
      rw [show (pb_write_fixed32 v).length = 4 from rfl]
      omega)]
    rw [show (4 : Nat) = (pb_write_fixed32 v).length from rfl]
    rw [List.take_left, List.drop_left]
    rw [read_le_write_fixed32 v hc.2]
    rfl
  | .fixed64Field id v =>
    have hc : id < 2 ^ 29 ∧ v < 2 ^ 64 := by
      rw [pbEmitWF] at hwf
      simpa [Bool.and_eq_true] using hwf
    rw [show pbEmitBytes (PbEmit.fixed64Field id v)
        = pb_write_varint (pb_make_tag id .Fixed64) ++ pb_write_fixed64 v from by
      rw [pbEmitBytes]]
    rw [List.append_assoc]
    unfold pbDecoderNextItem
    rw [pbDecoderParseField_tagged id .Fixed64 hc.1 (pb_write_fixed64 v ++ rest)]
    rw [show PbWireType.toNat PbWireType.Fixed64 = 1 from rfl]
    rw [decodePayload_fixed64 id (by
      simp only [List.length_append]
      rw [show (pb_write_fixed64 v).length = 8 from rfl]
      omega)]
    rw [show (8 : Nat) = (pb_write_fixed64 v).length from rfl]
    rw [List.take_left, List.drop_left]
    rw [read_le_write_fixed64 v hc.2]
    rfl
  | .nested id body =>
    have hc : (id < 2 ^ 29 ∧ (pbEmitListBytes body).length < 2 ^ 28)
        ∧ pbEmitListWF body = true := by
      rw [pbEmitWF] at hwf
      simpa [Bool.and_eq_true] using hwf
    rw [show pbEmitBytes (PbEmit.nested id body)
        = pb_write_varint (pb_make_tag id .Delimited)
          ++ (finalize_bytes (pbEmitListBytes body).length ++ pbEmitListBytes body) from by
      rw [pbEmitBytes]]
    simp only [List.append_assoc]
    unfold pbDecoderNextItem
    rw [pbDecoderParseField_tagged id .Delimited hc.1.1
      (finalize_bytes (pbEmitListBytes body).length ++ (pbEmitListBytes body ++ rest))]
    rw [show PbWireType.toNat PbWireType.Delimited = 2 from rfl]
    have hpfb := parse_finalize_bytes (pbEmitListBytes body).length hc.1.2
      (pbEmitListBytes body ++ rest)
    rw [decodePayload_delimited id hpfb (by norm_num) (by
      rw [show (4 : Nat)
          = (finalize_bytes (pbEmitListBytes body).length).length from
        (finalize_bytes_length _).symm]
      rw [List.drop_left]
      simp only [List.length_append]
      omega)]
    rw [show (4 : Nat)
        = (finalize_bytes (pbEmitListBytes body).length).length from
      (finalize_bytes_length _).symm]
    rw [List.drop_left, List.take_left, List.drop_left]
    rfl
  | .rawBytes bytes =>
    rw [pbEmitWF] at hwf
    exact Bool.noConfusion hwf
  | .rawByte v =>
    rw [pbEmitWF] at hwf
    exact Bool.noConfusion hwf
  | .rawVarint v =>
    rw [pbEmitWF] at hwf
    exact Bool.noConfusion hwf
  | .rawFixed32 v =>
    rw [pbEmitWF] at hwf
    exact Bool.noConfusion hwf
  | .rawFixed64 v =>
    rw [pbEmitWF] at hwf
    exact Bool.noConfusion hwf

/-- Decoding the encoding of a well-formed emission sequence yields exactly
the expected items. -/
theorem pbDecoderItems_emitList (es : List PbEmit) (h : pbEmitListWF es = true) :
    pbDecoderItems (pbEmitListBytes es) = es.map pbEmitItem := by
  induction es with
  | nil => rfl
  | cons e es ih =>
    have h2 : pbEmitWF e = true ∧ pbEmitListWF es = true := by
      rw [pbEmitListWF] at h
      simpa [Bool.and_eq_true] using h
    rw [show pbEmitListBytes (e :: es) = pbEmitBytes e ++ pbEmitListBytes es from by
      rw [pbEmitListBytes]]
    rw [pbDecoderItems_step (pbDecoderNextItem_emit e (pbEmitListBytes es) h2.1)]
    rw [ih h2.2]
    rfl

/-! ### Claim theorems: writer and decoder -/

/-- **C1** (amended): for any sequence of field emissions whose field numbers
are below `2 ^ 29` (so the u32 tag shift does not wrap), whose values and
lengths are within their Rust types' ranges, and whose nested bodies each
encode to fewer than `2 ^ 28` bytes (the 4-byte placeholder limit), decoding
the buffer produced by the Message Writer yields exactly the emitted
`(field_number, wire_type, value)` sequence, and every nested `Delimited`
payload slice (the encoding of its body, at any depth), recursively decoded,
reproduces the nested field sequence that was emitted into it. -/
theorem claim_C1_roundtrip (es : List PbEmit) (h : pbEmitListWF es = true) :
    pbDecoderItems (pbMsgEncode es) = es.map pbEmitItem ∧
    ∀ b ∈ pbEmitListBodies es,
      pbDecoderItems (pbEmitListBytes b) = b.map pbEmitItem := by
  constructor
  · rw [show pbMsgEncode es = pbEmitListBytes es from by
      unfold pbMsgEncode
      rw [pbMsgRunEmits_spec]
      simp]
    exact pbDecoderItems_emitList es h
  · intro b hb
    exact pbDecoderItems_emitList b (pbEmitListBodies_wf es h b hb)

/-- Counterexample to C1 as stated: a varint field with field number `2 ^ 29`
(a legal u32 argument of `append_type0_field`) encodes to a tag that wraps
modulo `2 ^ 32`, and decoding returns field number 0 instead. -/
theorem claim_C1_roundtrip_counterexample :
    ¬ (pbDecoderItems (pbMsgEncode [PbEmit.varintField (2 ^ 29) 5])
        = [PbDecoderItem.ok (2 ^ 29) (PbDecoderField.Varint 5)]) := by
  have henc : pbMsgEncode [PbEmit.varintField (2 ^ 29) 5] = [0, 5] := by
    unfold pbMsgEncode
    rw [pbMsgRunEmits_spec]
    simp [pbEmitListBytes, pbEmitBytes, pb_write_varint_eq_last, pb_make_tag,
      PbWireType.toNat]
    decide
  rw [henc]
  decide

/-- Witness for C1: a top-level varint field and a nested message holding a
string field and a varint field round-trip, including the recursive decode of
the nested payload. -/
theorem claim_C1_roundtrip_witness :
    (pbDecoderItems (pbMsgEncode [PbEmit.varintField 3 5,
        PbEmit.nested 5 [PbEmit.delimitedField 1 [104, 101, 108, 108, 111],
          PbEmit.varintField 5 1]])
      = [PbEmit.varintField 3 5,
          PbEmit.nested 5 [PbEmit.delimitedField 1 [104, 101, 108, 108, 111],
            PbEmit.varintField 5 1]].map pbEmitItem) ∧
    (pbDecoderItems (pbEmitListBytes [PbEmit.delimitedField 1 [104, 101, 108, 108, 111],
        PbEmit.varintField 5 1])
      = [PbEmit.delimitedField 1 [104, 101, 108, 108, 111],
          PbEmit.varintField 5 1].map pbEmitItem) := by
  have hwf : pbEmitListWF [PbEmit.varintField 3 5,
      PbEmit.nested 5 [PbEmit.delimitedField 1 [104, 101, 108, 108, 111],
        PbEmit.varintField 5 1]] = true := by
    simp [pbEmitListWF, pbEmitWF, pbEmitListBytes, pbEmitBytes,
      pb_write_varint_eq_last, pb_write_varint_eq_cont, pb_make_tag, PbWireType.toNat]
  exact ⟨(claim_C1_roundtrip _ hwf).1,
    (claim_C1_roundtrip _ hwf).2 _ (by simp [pbEmitListBodies, pbEmitBodies])⟩

/-- **C2** (amended: the accumulated size is below `2 ^ 28`): `finalize`
writes the accumulated body size into the 4-byte placeholder using the
redundant varint encoding, with the continuation bit set on bytes 0-2 and
clear on byte 3, parsing those bytes as a varint consumes exactly 4 bytes and
returns the size, and `finalize` returns the size. -/
theorem claim_C2_finalize_placeholder (a c : List Nat) (p0 p1 p2 p3 : Nat)
    (f : PbMsgFrame) (hph : f.ph = some a.length) (hs : f.size < 2 ^ 28) :
    pbMsgFinalize (a ++ p0 :: p1 :: p2 :: p3 :: c) f
      = ((a ++ finalize_bytes f.size ++ c, { f with ph := none }), f.size) ∧
    (∀ rest, pb_parse_varint (finalize_bytes f.size ++ rest) = (f.size, 4)) ∧
    pb_parse_varint (finalize_bytes f.size) = (f.size, 4) ∧
    (finalize_bytes f.size).getD 0 0 &&& 0x80 = 0x80 ∧
    (finalize_bytes f.size).getD 1 0 &&& 0x80 = 0x80 ∧
    (finalize_bytes f.size).getD 2 0 &&& 0x80 = 0x80 ∧
    (finalize_bytes f.size).getD 3 0 &&& 0x80 = 0 := by
  have hs21 : f.size >>> 21 < 128 := by
    rw [Nat.shiftRight_eq_div_pow]
    omega
  refine ⟨?_, fun rest => parse_finalize_bytes f.size hs rest, ?_, ?_, ?_, ?_, ?_⟩
  · unfold pbMsgFinalize
    rw [hph]
    show ((pbMsgFinalizeWrite (a ++ p0 :: p1 :: p2 :: p3 :: c) a.length f.size,
        ({ f with ph := none } : PbMsgFrame)), f.size)
      = ((a ++ finalize_bytes f.size ++ c, { f with ph := none }), f.size)
    rw [pbMsgFinalizeWrite_splice a c p0 p1 p2 p3 f.size]
  · have h := parse_finalize_bytes f.size hs []
    simpa using h
  · simp only [finalize_bytes, List.getD_cons_zero]
    exact or_128_and_128 _
  · simp only [finalize_bytes, List.getD_cons_succ, List.getD_cons_zero]
    exact or_128_and_128 _
  · simp only [finalize_bytes, List.getD_cons_succ, List.getD_cons_zero]
    exact or_128_and_128 _
  · simp only [finalize_bytes, List.getD_cons_succ, List.getD_cons_zero]
    rw [show (f.size >>> 21) &&& 255 = f.size >>> 21 from by
      rw [show (255 : Nat) = 2 ^ 8 - 1 from by norm_num,
        Nat.and_pow_two_sub_one_eq_mod]
      exact Nat.mod_eq_of_lt (by omega)]
    exact and_128_eq_zero_of_lt hs21

/-- Counterexample to C2 as stated: for a writer whose accumulated size is
`2 ^ 28` (reachable by appending `2 ^ 28` bytes), byte 3 of the placeholder
has the continuation bit set, and parsing the 4 placeholder bytes fails with
`(0, 0)` instead of consuming 4 bytes and returning the size. -/
theorem claim_C2_finalize_placeholder_counterexample :
    finalize_bytes (2 ^ 28) = [128, 128, 128, 128] ∧
    (finalize_bytes (2 ^ 28)).getD 3 0 &&& 0x80 ≠ 0 ∧
    pb_parse_varint (finalize_bytes (2 ^ 28)) ≠ (2 ^ 28, 4) ∧
    pbMsgFinalize [0, 0, 0, 0] { size := 2 ^ 28, ph := some 0 }
      = (([128, 128, 128, 128], { size := 2 ^ 28, ph := none }), 2 ^ 28) :=
  ⟨by decide, by decide, by decide, by decide⟩

/-- Witness for C2 at a 4-byte placeholder and size 5 (matching the bytes
`133 128 128 0` of the source's `append_nested` unit test). -/
theorem claim_C2_finalize_placeholder_witness :
    pbMsgFinalize ([] ++ 0 :: 0 :: 0 :: 0 :: [9]) { size := 5, ph := some 0 }
      = (([] ++ finalize_bytes 5 ++ [9], { size := 5, ph := none }), 5) ∧
    pb_parse_varint (finalize_bytes 5 ++ [7]) = (5, 4) ∧
    pb_parse_varint (finalize_bytes 5) = (5, 4) ∧
    (finalize_bytes 5).getD 0 0 &&& 0x80 = 0x80 ∧
    (finalize_bytes 5).getD 3 0 &&& 0x80 = 0 := by
  have h := claim_C2_finalize_placeholder [] [9] 0 0 0 0
    { size := 5, ph := some 0 } rfl (by norm_num)
  exact ⟨h.1, h.2.1 [7], h.2.2.1, h.2.2.2.1, h.2.2.2.2.2.2⟩

/-- **C7**: the decoder iteration is finite (each yielded item strictly
consumes input), produces no more items once the cursor reaches the end of
the buffer exactly (an empty buffer yields zero items), and a tag with an
unrecognized wire type yields exactly one `InvalidWireType` error item after
which the sequence ends. -/
theorem claim_C7_decoder_termination :
    pbDecoderItems ([] : List Nat) = [] ∧
    pbDecoderNextItem ([] : List Nat) = none ∧
    (∀ (data : List Nat) (item : PbDecoderItem) (rem : List Nat),
      pbDecoderNextItem data = some (item, rem) → rem.length < data.length) ∧
    (∀ (data : List Nat) (tag c : Nat),
      pb_parse_varint data = (tag, c) → c ≠ 0 → data ≠ [] →
      pbWireTypeTryFrom (tag &&& 7) = none →
      pbDecoderItems data = [.err (tag &&& 7)]) := by
  refine ⟨rfl, rfl, fun data item rem h => pbDecoderNextItem_shrink h, ?_⟩
  intro data tag c hp hc hne htf
  have h0 : tag &&& 7 ≠ 0 := by
    intro hx
    rw [hx] at htf
    simp [pbWireTypeTryFrom] at htf
  have h1 : tag &&& 7 ≠ 1 := by
    intro hx
    rw [hx] at htf
    simp [pbWireTypeTryFrom] at htf
  have h2 : tag &&& 7 ≠ 2 := by
    intro hx
    rw [hx] at htf
    simp [pbWireTypeTryFrom] at htf
  have h5 : tag &&& 7 ≠ 5 := by
    intro hx
    rw [hx] at htf
    simp [pbWireTypeTryFrom] at htf
  have hpf := pbDecoderParseField_of_parse hne hp hc
  rw [decodePayload_unknown ((tag >>> 3) % 2 ^ 32) (data.drop c) h0 h1 h2 h5] at hpf
  have hnext : pbDecoderNextItem data = some (.err (tag &&& 7), []) := by
    unfold pbDecoderNextItem
    rw [hpf]
    simp only [htf]
  rw [pbDecoderItems_step hnext]
  rfl

/-- Witness for C7: the buffer `[27]` (tag with field 3, wire type 3) yields
exactly one `InvalidWireType` item and ends. -/
theorem claim_C7_decoder_termination_witness :
    pbDecoderItems [27] = [PbDecoderItem.err (27 &&& 7)] :=
  claim_C7_decoder_termination.2.2.2 [27] 27 1 (by decide) (by decide)
    (by decide) (by decide)

/-- **C8**: calling `finalize` a second time on an already-finalized writer
is a no-op: the first call nulled the placeholder, so the second call writes
no bytes, changes no state, and returns the same size. -/
theorem claim_C8_finalize_idempotent (buf : List Nat) (f : PbMsgFrame) :
    pbMsgFinalize (pbMsgFinalize buf f).1.1 (pbMsgFinalize buf f).1.2
      = (((pbMsgFinalize buf f).1.1, (pbMsgFinalize buf f).1.2),
         (pbMsgFinalize buf f).2) := by
  rcases f with ⟨s, ph⟩
  cases ph <;> simp [pbMsgFinalize]

/-- **C10**: after any sequence of append operations (raw appends, field
helpers, and `append_nested` including the finalized child), the running size
equals exactly the number of bytes written to the stream on behalf of the
message (each nested message counting its 4-byte placeholder and finalized
body), and `finalize` writes and returns that quantity. -/
theorem claim_C10_size_accounting (es : List PbEmit) (buf : List Nat) (f : PbMsgFrame) :
    (pbMsgRunEmits buf f es).2.size
      = f.size + ((pbMsgRunEmits buf f es).1.length - buf.length) ∧
    (pbMsgRunEmits buf f es).1.length = buf.length + (pbEmitListBytes es).length ∧
    (pbMsgFinalize (pbMsgRunEmits buf f es).1 (pbMsgRunEmits buf f es).2).2
      = (pbMsgRunEmits buf f es).2.size := by
  rw [pbMsgRunEmits_spec]
  refine ⟨?_, ?_, ?_⟩
  · simp only [List.length_append]
    omega
  · simp only [List.length_append]
  · unfold pbMsgFinalize
    cases f.ph <;> rfl

/-!
### Chunked output stream

Embedding of `src/contrib/rust-sdk/perfetto/src/stream_writer.rs`.  The
`PerfettoStreamWriter` struct holds `begin`, `end`, `write_ptr` (pointers
into the active chunk, modelled as abstract addresses) and
`written_previously`.  The slow paths (`PerfettoStreamWriterAppendBytesSlowpath`,
`PerfettoStreamWriterReserveBytesSlowpath`, `PerfettoStreamWriterNewChunk`)
live in the C core and are modelled from the spec, with `K` the capacity of
the provider's fresh chunks.
-/

/-- The `PerfettoStreamWriter` state; `endp` is the struct's `end` field. -/
structure StreamWriter where
  begin : Nat
  endp : Nat
  write_ptr : Nat
  written_previously : Nat
deriving DecidableEq

/-- A stream state with its pointers in order (`begin <= write_ptr <= end`,
the asserts of stream_writer.rs) and the active chunk within capacity. -/
def StreamWriter.Valid (K : Nat) (w : StreamWriter) : Prop :=
  w.begin ≤ w.write_ptr ∧ w.write_ptr ≤ w.endp ∧ w.endp - w.begin ≤ K

/-- Embedding of `StreamWriter::available_bytes` (stream_writer.rs lines 30-36). -/
def available_bytes (w : StreamWriter) : Nat := w.endp - w.write_ptr

/-- Embedding of `StreamWriter::get_written_size` (stream_writer.rs lines
149-157): `written_previously + (write_ptr - begin)`. -/
def get_written_size (w : StreamWriter) : Nat :=
  w.written_previously + (w.write_ptr - w.begin)

/-- Embedding of `StreamWriter::append_bytes_unchecked` (stream_writer.rs
lines 41-53): copy the bytes and advance the write pointer. -/
def append_bytes_unchecked (w : StreamWriter) (n : Nat) : StreamWriter :=
  { w with write_ptr := w.write_ptr + n }

/-- Modelled from the spec: `PerfettoStreamWriterNewChunk` commits the bytes
written into the active chunk and acquires a fresh chunk of capacity `K`. -/
def stream_new_chunk (w : StreamWriter) (K : Nat) : StreamWriter :=
  { begin := 0, endp := K, write_ptr := 0,
    written_previously := w.written_previously + (w.write_ptr - w.begin) }

/-- Modelled from the spec: `PerfettoStreamWriterAppendBytesSlowpath` splits
the write across chunk boundaries: it fills the rest of the active chunk,
commits it, acquires fresh chunks of capacity `K` for the remaining
`n - fit` bytes, and leaves the stream positioned after the last byte
(`leftover` bytes into the final fresh chunk). -/
def append_bytes_slowpath (w : StreamWriter) (K n : Nat) : StreamWriter :=
  let fit := w.endp - w.write_ptr
  let leftover := ((n - fit - 1) % K) + 1
  { begin := 0, endp := K, write_ptr := leftover,
    written_previously := w.written_previously + (w.endp - w.begin)
      + (n - fit - leftover) }

/-- Embedding of `StreamWriter::append_bytes` (stream_writer.rs lines 56-70):
fast path if the bytes fit, otherwise the provider's slow path. -/
def append_bytes (w : StreamWriter) (K n : Nat) : StreamWriter :=
  if n ≤ available_bytes w then append_bytes_unchecked w n
  else append_bytes_slowpath w K n

/-- Embedding of `StreamWriter::append_byte` (stream_writer.rs lines 73-90):
acquire a new chunk if the active one is full, then write one byte. -/
def append_byte (w : StreamWriter) (K : Nat) : StreamWriter :=
  if available_bytes w < 1 then
    let w2 := stream_new_chunk w K
    { w2 with write_ptr := w2.write_ptr + 1 }
  else
    { w with write_ptr := w.write_ptr + 1 }

/-- Embedding of `StreamWriter::reserve_bytes_unchecked` (stream_writer.rs
lines 98-115): the reserved range starts at the current write pointer, which
advances past it. -/
def reserve_bytes_unchecked (w : StreamWriter) (n : Nat) : StreamWriter :=
  { w with write_ptr := w.write_ptr + n }

/-- Modelled from the spec: `PerfettoStreamWriterReserveBytesSlowpath`
commits the active chunk and places the `n` reserved bytes contiguously at
the start of a fresh chunk (the source requires `n` to be smaller than the
provider's chunk size). -/
def reserve_bytes_slowpath (w : StreamWriter) (K n : Nat) : StreamWriter :=
  { begin := 0, endp := K, write_ptr := n,
    written_previously := w.written_previously + (w.write_ptr - w.begin) }

/-- Embedding of `StreamWriter::reserve_bytes` (stream_writer.rs lines
125-146). -/
def reserve_bytes (w : StreamWriter) (K n : Nat) : StreamWriter :=
  if n ≤ available_bytes w then reserve_bytes_unchecked w n
  else reserve_bytes_slowpath w K n

/-- The operations a caller can perform on the stream. -/
inductive StreamOp where
  | append (n : Nat)
  | appendByte
  | reserve (n : Nat)
deriving DecidableEq

/-- Per-operation precondition: a reservation must fit in one chunk
(`reserve_bytes`' documented safety requirement). -/
def StreamOpOK (K : Nat) : StreamOp → Prop
  | .reserve n => n ≤ K
  | _ => True

def streamStep (K : Nat) (w : StreamWriter) : StreamOp → StreamWriter
  | .append n => append_bytes w K n
  | .appendByte => append_byte w K
  | .reserve n => reserve_bytes w K n

def streamRun (K : Nat) (w : StreamWriter) : List StreamOp → StreamWriter
  | [] => w
  | op :: ops => streamRun K (streamStep K w op) ops

/-- Each operation preserves validity and never decreases the written size;
appends grow it by exactly `n`. -/
theorem streamStep_spec (K : Nat) (w : StreamWriter) (op : StreamOp)
    (hK : 1 ≤ K) (hv : w.Valid K) (hop : StreamOpOK K op) :
    (streamStep K w op).Valid K ∧
    get_written_size w ≤ get_written_size (streamStep K w op) := by
  obtain ⟨hv1, hv2, hv3⟩ := hv
  match op with
  | .append n =>
    simp only [streamStep, append_bytes]
    by_cases h : n ≤ available_bytes w
    · rw [if_pos h]
      unfold available_bytes at h
      unfold StreamWriter.Valid get_written_size append_bytes_unchecked
      simp only
      omega
    · rw [if_neg h]
      unfold available_bytes at h
      unfold StreamWriter.Valid get_written_size append_bytes_slowpath
      simp only
      have hm1 : (n - (w.endp - w.write_ptr) - 1) % K < K :=
        Nat.mod_lt _ (by omega)
      have hm2 : (n - (w.endp - w.write_ptr) - 1) % K ≤ n - (w.endp - w.write_ptr) - 1 :=
        Nat.mod_le _ _
      omega
  | .appendByte =>
    simp only [streamStep, append_byte]
    by_cases h : available_bytes w < 1
    · rw [if_pos h]
      unfold available_bytes at h
      unfold StreamWriter.Valid get_written_size stream_new_chunk
      simp only
      omega
    · rw [if_neg h]
      unfold available_bytes at h
      unfold StreamWriter.Valid get_written_size
      simp only
      omega
  | .reserve n =>
    simp only [streamStep, reserve_bytes]
    by_cases h : n ≤ available_bytes w
    · rw [if_pos h]
      unfold available_bytes at h
      unfold StreamWriter.Valid get_written_size reserve_bytes_unchecked
      simp only
      omega
    · rw [if_neg h]
      unfold available_bytes at h
      unfold StreamOpOK at hop
      unfold StreamWriter.Valid get_written_size reserve_bytes_slowpath
      simp only
      omega

/-- Validity and monotonicity along any operation sequence. -/
theorem streamRun_spec (K : Nat) : ∀ (ops : List StreamOp) (w : StreamWriter),
    1 ≤ K → w.Valid K → (∀ op ∈ ops, StreamOpOK K op) →
    (streamRun K w ops).Valid K ∧
    get_written_size w ≤ get_written_size (streamRun K w ops) := by
  intro ops
  induction ops with
  | nil =>
    intro w hK hv hops
    exact ⟨hv, Nat.le_refl _⟩
  | cons op ops ih =>
    intro w hK hv hops
    have hstep := streamStep_spec K w op hK hv (hops op (by simp))
    have hrest := ih (streamStep K w op) hK hstep.1
      (fun o ho => hops o (by simp [ho]))
    exact ⟨hrest.1, Nat.le_trans hstep.2 hrest.2⟩

/-- **C9**: `get_written_size` is monotonically non-decreasing across the
stream's lifetime (no operation decreases it), and on the fast path
`append_bytes` and `reserve_bytes` increase the written size by exactly the
byte count while decreasing `available_bytes` by the same amount. -/
theorem claim_C9_stream_writer (K n : Nat) (w : StreamWriter) (ops : List StreamOp)
    (hK : 1 ≤ K) (hv : w.Valid K) (hops : ∀ op ∈ ops, StreamOpOK K op)
    (hfast : n ≤ available_bytes w) :
    get_written_size w ≤ get_written_size (streamRun K w ops) ∧
    get_written_size (append_bytes w K n) = get_written_size w + n ∧
    available_bytes (append_bytes w K n) = available_bytes w - n ∧
    get_written_size (reserve_bytes w K n) = get_written_size w + n ∧
    available_bytes (reserve_bytes w K n) = available_bytes w - n := by
  obtain ⟨hv1, hv2, hv3⟩ := hv
  have hfa : append_bytes w K n = append_bytes_unchecked w n := by
    unfold append_bytes
    rw [if_pos hfast]
  have hfr : reserve_bytes w K n = reserve_bytes_unchecked w n := by
    unfold reserve_bytes
    rw [if_pos hfast]
  refine ⟨(streamRun_spec K ops w hK ⟨hv1, hv2, hv3⟩ hops).2, ?_, ?_, ?_, ?_⟩
  · rw [hfa]
    simp only [get_written_size, append_bytes_unchecked, available_bytes] at *
    omega
  · rw [hfa]
    simp only [append_bytes_unchecked, available_bytes] at *
    omega
  · rw [hfr]
    simp only [get_written_size, reserve_bytes_unchecked, available_bytes] at *
    omega
  · rw [hfr]
    simp only [reserve_bytes_unchecked, available_bytes] at *
    omega

/-- Witness for C9 on a 4-byte chunk: two appends (one overflowing), a
byte append and a reservation. -/
theorem claim_C9_stream_writer_witness :
    get_written_size { begin := 0, endp := 4, write_ptr := 1, written_previously := 0 }
      ≤ get_written_size (streamRun 4
          { begin := 0, endp := 4, write_ptr := 1, written_previously := 0 }
          [.append 2, .append 7, .appendByte, .reserve 3]) ∧
    get_written_size (append_bytes
        { begin := 0, endp := 4, write_ptr := 1, written_previously := 0 } 4 2)
      = get_written_size
          { begin := 0, endp := 4, write_ptr := 1, written_previously := 0 } + 2 ∧
    available_bytes (append_bytes
        { begin := 0, endp := 4, write_ptr := 1, written_previously := 0 } 4 2)
      = available_bytes
          { begin := 0, endp := 4, write_ptr := 1, written_previously := 0 } - 2 ∧
    get_written_size (reserve_bytes
        { begin := 0, endp := 4, write_ptr := 1, written_previously := 0 } 4 2)
      = get_written_size
          { begin := 0, endp := 4, write_ptr := 1, written_previously := 0 } + 2 ∧
    available_bytes (reserve_bytes
        { begin := 0, endp := 4, write_ptr := 1, written_previously := 0 } 4 2)
      = available_bytes
          { begin := 0, endp := 4, write_ptr := 1, written_previously := 0 } - 2 :=
  claim_C9_stream_writer 4 2
    { begin := 0, endp := 4, write_ptr := 1, written_previously := 0 }
    [.append 2, .append 7, .appendByte, .reserve 3]
    (by norm_num) (by constructor <;> [norm_num; constructor <;> norm_num])
    (by
      intro op hop
      simp only [List.mem_cons, List.not_mem_nil, or_false] at hop
      rcases hop with rfl | rfl | rfl | rfl
      · trivial
      · trivial
      · trivial
      · show (3 : Nat) ≤ 4
        norm_num)
    (by norm_num [available_bytes])

/-!
### Backpatch propagation across chunks

Model for the pending-size-patch protocol: `PbMsgSizeField::patch_stack` and
the overflow checks are translated from pb_msg.rs; the chunk provider and
`PerfettoStreamWriterAnnotatePatch` are modelled from the spec
(`annotate_patch(old_pointer) -> new_pointer` "asks the Chunk Provider to
translate a previously returned pointer into one still valid for writing,
because the owning chunk may have been reclaimed").  A placeholder pointer is
either an offset into a numbered chunk or a slot of the provider's patch
storage, which is never reclaimed; chunks other than the active one count as
reclaimed (the worst case the spec allows).
-/

/-- A placeholder pointer: an offset into chunk `cid`, or slot `pid` of the
provider's patch storage. -/
inductive PatchLoc where
  | chunk (cid off : Nat)
  | patchArea (pid : Nat)
deriving DecidableEq

/-- The writer's patch-relevant state: the active chunk id, the bytes left in
it, the next free patch-storage slot, and the ancestor chain of non-null
placeholder pointers, innermost message first (the root's placeholder is
null and is not represented; `patch_stack`'s range check stops on it just as
it stops on any pointer outside the active chunk). -/
structure ChunkedWriter where
  activeCid : Nat
  avail : Nat
  nextPid : Nat
  chain : List PatchLoc
deriving DecidableEq

/-- The range check `range_begin <= ptr && ptr < range_end` of `patch_stack`
(pb_msg.rs lines 74): a pointer lies inside the active chunk's live range
exactly when it is a chunk pointer with the active chunk id; patch-storage
pointers and pointers into other chunks compare outside the range. -/
def locInActive (acid : Nat) : PatchLoc → Bool
  | .chunk cid _ => cid == acid
  | .patchArea _ => false

/-- Embedding of `PbMsgSizeField::patch_stack` (pb_msg.rs lines 66-80), with
`PerfettoStreamWriterAnnotatePatch` modelled from the spec: while the walked
placeholder pointer lies inside the active chunk's live range, replace it by
a fresh patch-storage pointer (the provider's translation, still valid for
writing) and recurse to the parent; stop at the first pointer outside the
range. -/
def patchStack (acid : Nat) : Nat → List PatchLoc → Nat × List PatchLoc
  | nextPid, [] => (nextPid, [])
  | nextPid, loc :: rest =>
    if locInActive acid loc then
      let r := patchStack acid (nextPid + 1) rest
      (r.1, .patchArea nextPid :: r.2)
    else (nextPid, loc :: rest)

/-- The operations of a message-writer stack that touch the chunked stream. -/
inductive MsgOp where
  | appendBytes (n : Nat)
  | openNested (tagLen : Nat)
  | closeNested
deriving DecidableEq

/-- `PbMsg::append_bytes` over the chunked stream (pb_msg.rs lines 107-113):
on overflow run `patch_stack`, then the spec-modelled slow path acquires
fresh chunks of capacity `K` and leaves `leftover` bytes written into the
last one. -/
def chunkedAppend (K : Nat) (w : ChunkedWriter) (n : Nat) : ChunkedWriter :=
  if n ≤ w.avail then { w with avail := w.avail - n }
  else
    let p := patchStack w.activeCid w.nextPid w.chain
    let leftover := ((n - w.avail - 1) % K) + 1
    { activeCid := w.activeCid + 1 + (n - w.avail - leftover) / K,
      avail := K - leftover, nextPid := p.1, chain := p.2 }

/-- `PbMsg::append_nested` up to the child construction (pb_msg.rs lines
198-224): append the tag varint (`tagLen` bytes, with `append_bytes`' own
overflow handling), run `patch_stack` if the 4-byte length field would
overflow the active chunk, reserve the field (contiguously in a fresh chunk
on the slow path), and chain the child's placeholder pointer in front. -/
def chunkedOpenNested (K : Nat) (w : ChunkedWriter) (tagLen : Nat) : ChunkedWriter :=
  let w1 := chunkedAppend K w tagLen
  if PROTOZERO_MESSAGE_LENGTH_FIELD_SIZE ≤ w1.avail then
    { w1 with
        avail := w1.avail - PROTOZERO_MESSAGE_LENGTH_FIELD_SIZE,
        chain := .chunk w1.activeCid w1.avail :: w1.chain }
  else
    let p := patchStack w1.activeCid w1.nextPid w1.chain
    { activeCid := w1.activeCid + 1,
      avail := K - PROTOZERO_MESSAGE_LENGTH_FIELD_SIZE,
      nextPid := p.1,
      chain := .chunk (w1.activeCid + 1) 0 :: p.2 }

/-- The `finalize` of the innermost open message at the end of
`append_nested` (pb_msg.rs lines 222-223, 227-248): the placeholder is
written through its pointer, nulled, and the child frame is dropped. -/
def chunkedCloseNested (w : ChunkedWriter) : ChunkedWriter :=
  { w with chain := w.chain.drop 1 }

def chunkedStep (K : Nat) (w : ChunkedWriter) : MsgOp → ChunkedWriter
  | .appendBytes n => chunkedAppend K w n
  | .openNested tagLen => chunkedOpenNested K w tagLen
  | .closeNested => chunkedCloseNested w

def chunkedRun (K : Nat) (w : ChunkedWriter) : List MsgOp → ChunkedWriter
  | [] => w
  | op :: ops => chunkedRun K (chunkedStep K w op) ops

/-- A fresh writer over a fresh chunk with no open nested message. -/
def chunkedInit (K : Nat) : ChunkedWriter :=
  { activeCid := 0, avail := K, nextPid := 0, chain := [] }

/-- The pointer is a patch-storage slot. -/
def isPatchAreaLoc : PatchLoc → Prop
  | .patchArea _ => True
  | .chunk _ _ => False

instance isPatchAreaLoc_decidable : DecidablePred isPatchAreaLoc := fun l => by
  cases l with
  | chunk cid off =>
    apply isFalse
    simp [isPatchAreaLoc]
  | patchArea pid =>
    apply isTrue
    simp [isPatchAreaLoc]

/-- Every pointer of the chain is already in patch storage. -/
def allPatchArea (chain : List PatchLoc) : Prop :=
  ∀ l ∈ chain, isPatchAreaLoc l

/-- Shape invariant of the ancestor chain: a prefix of pointers into the
active chunk (the placeholders created since the last chunk switch, newest
first), followed only by patch-storage pointers (everything older was
annotated when its chunk was superseded). -/
def chainOK (acid : Nat) : List PatchLoc → Prop
  | [] => True
  | .chunk cid _ :: rest => cid = acid ∧ chainOK acid rest
  | .patchArea _ :: rest => allPatchArea rest

theorem allPatchArea_chainOK (acid : Nat) : ∀ chain, allPatchArea chain →
    chainOK acid chain := by
  intro chain h
  match chain with
  | [] => trivial
  | .chunk cid off :: rest =>
    have := h (.chunk cid off) (by simp)
    simp [isPatchAreaLoc] at this
  | .patchArea pid :: rest =>
    show allPatchArea rest
    intro l hl
    exact h l (by simp [hl])

/-- After `patch_stack`, under the shape invariant, every pointer of the
chain is in patch storage: nothing references the chunk that is about to be
superseded. -/
theorem patchStack_allPatchArea (acid : Nat) : ∀ (chain : List PatchLoc) (np : Nat),
    chainOK acid chain → allPatchArea (patchStack acid np chain).2 := by
  intro chain
  induction chain with
  | nil =>
    intro np h l hl
    simp [patchStack] at hl
  | cons loc rest ih =>
    intro np h
    match loc with
    | .chunk cid off =>
      obtain ⟨hcid, hrest⟩ := h
      subst hcid
      simp only [patchStack, locInActive, beq_self_eq_true, if_true]
      intro l hl
      rcases List.mem_cons.mp hl with rfl | hl
      · simp [isPatchAreaLoc]
      · exact ih (np + 1) hrest l hl
    | .patchArea pid =>
      have hrest : allPatchArea rest := h
      simp only [patchStack, locInActive, Bool.false_eq_true, if_false]
      intro l hl
      rcases List.mem_cons.mp hl with rfl | hl
      · simp [isPatchAreaLoc]
      · exact hrest l hl

theorem chainOK_pop (acid : Nat) (chain : List PatchLoc)
    (h : chainOK acid chain) : chainOK acid (chain.drop 1) := by
  match chain with
  | [] => trivial
  | .chunk cid off :: rest => exact h.2
  | .patchArea pid :: rest => exact allPatchArea_chainOK acid rest h

/-- Each operation preserves the chain shape invariant. -/
theorem chunkedStep_chainOK (K : Nat) (w : ChunkedWriter) (op : MsgOp)
    (h : chainOK w.activeCid w.chain) :
    chainOK (chunkedStep K w op).activeCid (chunkedStep K w op).chain := by
  match op with
  | .appendBytes n =>
    simp only [chunkedStep, chunkedAppend]
    by_cases hn : n ≤ w.avail
    · rw [if_pos hn]
      exact h
    · rw [if_neg hn]
      exact allPatchArea_chainOK _ _ (patchStack_allPatchArea w.activeCid w.chain w.nextPid h)
  | .openNested tagLen =>
    have h1 : chainOK (chunkedAppend K w tagLen).activeCid (chunkedAppend K w tagLen).chain := by
      simp only [chunkedAppend]
      by_cases hn : tagLen ≤ w.avail
      · rw [if_pos hn]
        exact h
      · rw [if_neg hn]
        exact allPatchArea_chainOK _ _ (patchStack_allPatchArea w.activeCid w.chain w.nextPid h)
    simp only [chunkedStep, chunkedOpenNested]
    by_cases hfit : PROTOZERO_MESSAGE_LENGTH_FIELD_SIZE ≤ (chunkedAppend K w tagLen).avail
    · rw [if_pos hfit]
      exact ⟨rfl, h1⟩
    · rw [if_neg hfit]
      refine ⟨rfl, ?_⟩
      exact allPatchArea_chainOK _ _
        (patchStack_allPatchArea (chunkedAppend K w tagLen).activeCid
          (chunkedAppend K w tagLen).chain (chunkedAppend K w tagLen).nextPid h1)
  | .closeNested =>
    exact chainOK_pop _ _ h

theorem chunkedRun_chainOK (K : Nat) : ∀ (ops : List MsgOp) (w : ChunkedWriter),
    chainOK w.activeCid w.chain →
    chainOK (chunkedRun K w ops).activeCid (chunkedRun K w ops).chain := by
  intro ops
  induction ops with
  | nil => intro w h; exact h
  | cons op ops ih =>
    intro w h
    exact ih (chunkedStep K w op) (chunkedStep_chainOK K w op h)

/-- Under the shape invariant no placeholder pointer references a chunk
other than the active one. -/
theorem chainOK_no_dead (acid : Nat) : ∀ (chain : List PatchLoc),
    chainOK acid chain →
    ∀ l ∈ chain, ∀ cid off, l = PatchLoc.chunk cid off → cid = acid := by
  intro chain
  induction chain with
  | nil =>
    intro h l hl
    simp at hl
  | cons loc rest ih =>
    intro h l hl cid off heq
    cases loc with
    | chunk c o =>
      rcases List.mem_cons.mp hl with h2 | h2
      · rw [h2] at heq
        injection heq with h3 h4
        have h5 : c = acid := h.1
        omega
      · exact ih h.2 l h2 cid off heq
    | patchArea p =>
      rcases List.mem_cons.mp hl with h2 | h2
      · rw [h2] at heq
        simp at heq
      · have hall : allPatchArea rest := h
        have := hall l h2
        rw [heq] at this
        simp [isPatchAreaLoc] at this

/-- **C5**: in every state reachable by a sequence of writer operations, the
set of unresolved pending size patches whose backing bytes lie in superseded
chunk memory is empty (every non-null placeholder pointer is either in the
active chunk or in the provider's patch storage); moreover, whenever a write
overflows the active chunk, the proactive `patch_stack` walk that runs
before the chunk is superseded leaves every placeholder pointer in patch
storage, so no placeholder pointer is ever dereferenced after its backing
chunk has been discarded. -/
theorem claim_C5_patch_invariant (K : Nat) (ops : List MsgOp) :
    (∀ l ∈ (chunkedRun K (chunkedInit K) ops).chain, ∀ cid off,
      l = PatchLoc.chunk cid off →
      cid = (chunkedRun K (chunkedInit K) ops).activeCid) ∧
    (∀ w : ChunkedWriter, chainOK w.activeCid w.chain →
      allPatchArea (patchStack w.activeCid w.nextPid w.chain).2) := by
  constructor
  · exact chainOK_no_dead _ _ (chunkedRun_chainOK K ops (chunkedInit K) trivial)
  · intro w hw
    exact patchStack_allPatchArea w.activeCid w.chain w.nextPid hw

/-- Witness for C5: a chain with one placeholder in the active chunk above
an already-annotated ancestor is fully annotated by `patch_stack`. -/
theorem claim_C5_patch_invariant_witness :
    (∀ l ∈ (chunkedRun 4 (chunkedInit 4)
        [.openNested 1, .appendBytes 9, .openNested 2, .closeNested,
          .appendBytes 7, .closeNested]).chain, ∀ cid off,
      l = PatchLoc.chunk cid off →
      cid = (chunkedRun 4 (chunkedInit 4)
        [.openNested 1, .appendBytes 9, .openNested 2, .closeNested,
          .appendBytes 7, .closeNested]).activeCid) ∧
    allPatchArea (patchStack 3 5
      { activeCid := 3, avail := 0, nextPid := 5,
        chain := [PatchLoc.chunk 3 2, PatchLoc.patchArea 1] : ChunkedWriter }.chain).2 :=
  ⟨(claim_C5_patch_invariant 4
      [.openNested 1, .appendBytes 9, .openNested 2, .closeNested,
        .appendBytes 7, .closeNested]).1,
   (claim_C5_patch_invariant 4 []).2
      { activeCid := 3, avail := 0, nextPid := 5,
        chain := [PatchLoc.chunk 3 2, PatchLoc.patchArea 1] }
      (by simp [chainOK, allPatchArea])⟩

end PerfettoSpec
